import Mathlib

/-!
Verification of the readmap FM-index read mapper.

The development shallowly embeds the core of the repository:
the SAIS suffix-array construction (`src/sais.py`), the BWT and its
C/O tables, the D table and the bounded-edit backwards search
(`src/bwt.py`).  The modules `alphabet.py` and `approx.py` are imported
by the sources but are not part of the source tree; their definitions
are modelled from the specification and are marked as such.

Texts and patterns are integer sequences (`List Nat` of character
codes); Python's arbitrary-precision integers are embedded as `Nat`
where values are provably non-negative counts or indices, and as `Int`
where the code lets them go negative (`UNDEFINED = -1` array slots,
the remaining edit budget, the pattern cursor).
-/

set_option maxHeartbeats 1000000
set_option maxRecDepth 8000

namespace Readmap

/-- Write `v` at position `i` of a list, leaving the list unchanged when
`i` is out of bounds (the embedding of an in-place array store). -/
def lset : List α → Nat → α → List α
  | [], _, _ => []
  | _ :: xs, 0, v => v :: xs
  | x :: xs, i + 1, v => x :: lset xs i v

/-- Python-style list read: a negative index `i` reads from the end
(`l[-k]` is `l[len l - k]`), as the sources rely on for `is_s[i-1]`
at `i = 0` and for `x_[j - 1]` at `j = 0`. -/
def pyget (l : List α) (d : α) (i : Int) : α :=
  if 0 ≤ i then l.getD i.toNat d else l.getD (l.length - (-i).toNat) d

/-- Boolean lexicographic strict order on integer sequences. -/
def lexLt : List Nat → List Nat → Bool
  | [], [] => false
  | [], _ :: _ => true
  | _ :: _, [] => false
  | a :: as, b :: bs => a < b || (a = b && lexLt as bs)

/-- Boolean sequence-prefix test. -/
def prefB : List Nat → List Nat → Bool
  | [], _ => true
  | _ :: _, [] => false
  | a :: as, b :: bs => a = b && prefB as bs

/-- Index of the first occurrence of `v` in `l` (the length of `l` when
`v` is absent). -/
def posIn : List Nat → Nat → Nat
  | [], _ => 0
  | a :: l, v => if a = v then 0 else posIn l v + 1

/-- Modelled from the spec: `approx.py` is absent from the source tree.
`Edit` is the three-valued edit-operation tag of §3: `MATCH` consumes a
character of both text and pattern, `INSERT` consumes pattern only,
`DELETE` consumes text only. -/
inductive Edit where
  | MATCH
  | INSERT
  | DELETE
deriving DecidableEq, Repr

/-- A CIGAR: run-length encoded edit sequence, `(count, kind)` runs. -/
abbrev Cigar := List (Nat × Edit)

/-- Modelled from the spec: `approx.py` is absent from the source tree.
`edits_to_cigar` run-length encodes an edit sequence into runs of
identical kind. -/
def edits_to_cigar : List Edit → Cigar
  | [] => []
  | e :: rest =>
      match edits_to_cigar rest with
      | [] => [(1, e)]
      | (c, e') :: t => if e = e' then (c + 1, e') :: t else (1, e) :: (c, e') :: t

/-- Modelled from the spec: `approx.py` is absent from the source tree.
`cigar_to_edits` is the inverse of `edits_to_cigar`. -/
def cigar_to_edits : Cigar → List Edit
  | [] => []
  | (c, e) :: t => List.replicate c e ++ cigar_to_edits t

/-- One row-building walk over a flat edit sequence: `M` consumes both
sides, `I` consumes the pattern and puts a gap (`none`) on the text row,
`D` consumes the text and puts a gap on the pattern row. -/
def walkEdits : List Edit → List Nat → List Nat → List (Option Nat) × List (Option Nat)
  | [], _, _ => ([], [])
  | Edit.MATCH :: ops, t, p =>
      let r := walkEdits ops t.tail p.tail
      (t.head? :: r.1, p.head? :: r.2)
  | Edit.INSERT :: ops, t, p =>
      let r := walkEdits ops t p.tail
      (none :: r.1, p.head? :: r.2)
  | Edit.DELETE :: ops, t, p =>
      let r := walkEdits ops t.tail p
      (t.head? :: r.1, none :: r.2)

/-- Modelled from the spec: `approx.py` is absent from the source tree.
`extract_alignment text pattern pos cigar` walks the CIGAR from
position `pos` of the text and position `0` of the pattern, emitting the
aligned pair (text row, pattern row), gaps as `none` (§4.4). -/
def extract_alignment (text pattern : List Nat) (pos : Nat) (cigar : Cigar) :
    List (Option Nat) × List (Option Nat) :=
  walkEdits (cigar_to_edits cigar) (text.drop pos) pattern

/-- Modelled from the spec: `approx.py` is absent from the source tree.
`count_edits` counts the alignment columns where the two rows differ. -/
def count_edits (al : List (Option Nat) × List (Option Nat)) : Nat :=
  ((al.1.zip al.2).filter (fun c => c.1 ≠ c.2)).length

/-- Insert a value into a sorted list, keeping it sorted. -/
def insertSorted (a : Nat) : List Nat → List Nat
  | [] => [a]
  | b :: l => if a ≤ b then a :: b :: l else b :: insertSorted a l

/-- Sort a list of character codes ascending (insertion sort). -/
def sortNats (xs : List Nat) : List Nat :=
  xs.foldr insertSorted []

/-- Modelled from the spec: `alphabet.py` is absent from the source tree.
An alphabet is the ordered list of the distinct source characters; the
integer `0` is reserved for the sentinel, so character number `i` of this
list is mapped to `i + 1` (§3, §4.1). -/
structure Alphabet where
  chars : List Nat
deriving DecidableEq, Repr

/-- `len(alpha)` in the sources: the total symbol count `σ`, the
distinct characters plus the sentinel. -/
def Alphabet.size (alpha : Alphabet) : Nat :=
  alpha.chars.length + 1

/-- Modelled from the spec: the alphabet constructed over a text is the
sorted list of its distinct characters. -/
def alphabetOf (xs : List Nat) : Alphabet :=
  ⟨sortNats xs.dedup⟩

/-- Map one character through the alphabet (only meaningful for
characters that belong to it). -/
def Alphabet.mapChar (alpha : Alphabet) (c : Nat) : Nat :=
  posIn alpha.chars c + 1

/-- Modelled from the spec: `Alphabet.map` maps a query pattern and
fails (`KeyError`) when any character is absent from the alphabet. -/
def Alphabet.map (alpha : Alphabet) (p : List Nat) : Option (List Nat) :=
  if p.all (fun c => c ∈ alpha.chars) then some (p.map alpha.mapChar) else none

/-- Modelled from the spec: `mapped_string_with_sentinel` maps the text
through its alphabet and appends the sentinel `0`. -/
def mapped_string_with_sentinel (xs : List Nat) : List Nat × Alphabet :=
  let alpha := alphabetOf xs
  (xs.map alpha.mapChar ++ [0], alpha)

/-! ### SAIS (`src/sais.py`)

Arrays are embedded as `List Int` (the buffer mixes indices with the
`UNDEFINED = -1` marker), threaded through each loop as explicit state;
every read and write happens in the source's order, so the in-place
aliasing of the Python version is reproduced exactly. -/

/-- `UNDEFINED` marker of `sais.py`. -/
def UNDEFINED : Int := -1

/-- `classify_sl`: S/L classification; the sentinel (last position) is S,
and position `i` is S iff `x[i] < x[i+1]` or `x[i] = x[i+1]` and `i+1`
is S.  Computed from the right like the source's downward loop. -/
def classify_sl : List Int → List Bool
  | [] => []
  | [_] => [true]
  | a :: b :: rest =>
      let t := classify_sl (b :: rest)
      (a < b ∨ (a = b ∧ t.headD false)) :: t

/-- `Counter(x)` of the sources: occurrence count of symbol `a` in `x`. -/
def countsOf (x : List Int) (a : Int) : Int :=
  (x.count a : Int)

/-- `compute_buckets`: cumulative bucket offsets
`buckets[a] = buckets[a-1] + counts[a-1]`, length `asize + 1`. -/
def compute_buckets (counts : Int → Int) : Nat → List Int
  | 0 => [0]
  | a + 1 =>
      let b := compute_buckets counts a
      b ++ [b.getD a 0 + counts a]

/-- `bucket_lms`: clear the suffix array to `UNDEFINED` and place each
LMS position at the tail of its character's bucket.  The LMS test
`is_s[i] ∧ ¬is_s[i-1]` uses Python indexing, so `i = 0` consults the
last entry of `is_s`. -/
def bucket_lms (x : List Int) (asize : Nat) (saLen : Nat) (counts : Int → Int)
    (is_s : List Bool) : List Int :=
  let init := List.replicate saLen UNDEFINED
  let st := (List.range x.length).foldl
    (fun (st : List Int × List Int) i =>
      let (sa, bk) := st
      if pyget is_s false i ∧ ¬ pyget is_s false ((i : Int) - 1) then
        let c := (pyget x 0 i).toNat + 1
        let bk' := lset bk c (bk.getD c 0 - 1)
        (lset sa (bk'.getD c 0).toNat (i : Int), bk')
      else st)
    (init, compute_buckets counts asize)
  st.1

/-- `induce_l`: left-to-right pass inducing L suffixes. -/
def induce_l (x : List Int) (asize : Nat) (sa : List Int) (counts : Int → Int)
    (is_s : List Bool) : List Int :=
  let st := (List.range x.length).foldl
    (fun (st : List Int × List Int) i =>
      let (sa, bk) := st
      let sai := sa.getD i 0
      let j := sai - 1
      if sai = 0 ∨ sai = UNDEFINED then st
      else if pyget is_s false j then st
      else
        let c := (pyget x 0 j).toNat
        let sa' := lset sa (bk.getD c 0).toNat j
        (sa', lset bk c (bk.getD c 0 + 1)))
    (sa, compute_buckets counts asize)
  st.1

/-- `induce_s`: right-to-left pass inducing S suffixes (note that an
`UNDEFINED` entry makes `is_s[j]` a Python wrap-around read, exactly as
in the source). -/
def induce_s (x : List Int) (asize : Nat) (sa : List Int) (counts : Int → Int)
    (is_s : List Bool) : List Int :=
  let st := (List.range x.length).reverse.foldl
    (fun (st : List Int × List Int) i =>
      let (sa, bk) := st
      let sai := sa.getD i 0
      let j := sai - 1
      if sai = 0 then st
      else if ¬ pyget is_s false j then st
      else
        let c := (pyget x 0 j).toNat + 1
        let bk' := lset bk c (bk.getD c 0 - 1)
        (lset sa (bk'.getD c 0).toNat j, bk'))
    (sa, compute_buckets counts asize)
  st.1

/-- `equal_lms`: do the LMS substrings at positions `i` and `j` agree in
characters and S/L classes?  The source's unbounded walk is embedded
with fuel (any fuel beyond the text length is never consumed). -/
def equal_lms (x : List Int) (is_s : List Bool) (i j : Int) : Bool :=
  if i = j then true
  else go (x.length + 2) i j 0
where
  go : Nat → Int → Int → Int → Bool
    | 0, _, _, _ => false
    | fuel + 1, i, j, k =>
        let ik := i + k
        let jk := j + k
        let iLms := pyget is_s false ik ∧ ¬ pyget is_s false (ik - 1)
        let jLms := pyget is_s false jk ∧ ¬ pyget is_s false (jk - 1)
        if 0 < k ∧ iLms ∧ jLms then true
        else if iLms ≠ jLms ∨ pyget x 0 ik ≠ pyget x 0 jk then false
        else go fuel i j (k + 1)

/-- `reduce_lms`: compact the LMS indices to the front of the buffer,
name the LMS substrings into the rear half (slot `j / 2`), then compact
the names into the reduced string.  Returns the whole buffer together
with the LMS count `k` and the reduced alphabet size; the reduced
string is `sa[k..2k)` and the reduced suffix-array view is `sa[..k)`. -/
def reduce_lms (x : List Int) (sa : List Int) (is_s : List Bool) :
    List Int × Nat × Nat :=
  -- compact all LMS indices into the front of the suffix array
  let st1 := (List.range sa.length).foldl
    (fun (st : List Int × Nat) idx =>
      let (sa, k) := st
      let i := sa.getD idx 0
      if pyget is_s false i ∧ ¬ pyget is_s false (i - 1) then
        (lset sa k i, k + 1)
      else st)
    (sa, 0)
  let sa1 := st1.1
  let k := st1.2
  -- clear the buffer part, then write names at `k + j / 2`
  let sa2 := (List.range (sa1.length - k)).foldl
    (fun sa i => lset sa (k + i) UNDEFINED) sa1
  let st3 := (List.range k).foldl
    (fun (st : List Int × Int × Int) idx =>
      let (sa, prev, letter) := st
      let j := sa.getD idx 0
      let letter' := if equal_lms x is_s prev j then letter
                     else letter + 1
      (lset sa (k + (j / 2).toNat) letter', j, letter'))
    (sa2, sa2.getD 0 0, 0)
  let sa3 := st3.1
  let letter := st3.2.2
  -- compact the names into the reduced string at `sa[k..k+kk)`
  let st4 := (List.range (sa3.length - k)).foldl
    (fun (st : List Int × Nat) i =>
      let (sa, kk) := st
      let v := sa.getD (k + i) 0
      if v ≠ UNDEFINED then (lset sa (k + kk) v, kk + 1) else st)
    (sa3, 0)
  (st4.1, k, (letter + 1).toNat)

/-- `reverse_reduction`: translate the reduced suffix array back to LMS
positions (using `sa[k..2k)` as the offsets scratch), mark the rest of
the buffer `UNDEFINED`, and place the sorted LMS positions at their
bucket tails right-to-left. -/
def reverse_reduction (x : List Int) (asize : Nat) (sa : List Int) (k : Nat)
    (counts : Int → Int) (is_s : List Bool) : List Int :=
  -- compact the LMS offsets into the scratch region `sa[k..2k)`
  let st1 := (List.range x.length).foldl
    (fun (st : List Int × Nat) i =>
      let (sa, kk) := st
      if pyget is_s false i ∧ ¬ pyget is_s false ((i : Int) - 1) then
        (lset sa (k + kk) (i : Int), kk + 1)
      else st)
    (sa, 0)
  let sa1 := st1.1
  -- `sa[i] = offsets[red_sa[i]]`
  let sa2 := (List.range k).foldl
    (fun sa i => lset sa i (sa.getD (k + (sa.getD i 0).toNat) 0)) sa1
  -- mark everything past the LMS prefix as undefined
  let sa3 := (List.range (sa2.length - k)).foldl
    (fun sa i => lset sa (k + i) UNDEFINED) sa2
  -- place the sorted LMS positions at their bucket tails
  let st4 := (List.range k).reverse.foldl
    (fun (st : List Int × List Int) i =>
      let (sa, bk) := st
      let j := sa.getD i 0
      let sa' := lset sa i UNDEFINED
      let c := (pyget x 0 j).toNat + 1
      let bk' := lset bk c (bk.getD c 0 - 1)
      (lset sa' (bk'.getD c 0).toNat j, bk'))
    (sa3, compute_buckets counts asize)
  st4.1

/-- `sais_rec`: the recursive SAIS algorithm.  The base case
(`len(x) = asize`, all symbols distinct) fills `sa[x[i]] = i`; the
recursive case classifies, buckets the LMS positions, induces L then S,
reduces, recurses on the reduced string, and induces once more.  The
recursion is embedded with fuel; the nesting depth is at most the text
length, so `sais_alphabet` supplies fuel that is never exhausted. -/
def sais_rec : Nat → List Int → List Int → Nat → List Int
  | 0, _, sa, _ => sa
  | fuel + 1, x, sa, asize =>
      if x.length = asize then
        (List.range x.length).foldl
          (fun sa i => lset sa (x.getD i 0).toNat (i : Int)) sa
      else
        let is_s := classify_sl x
        let counts := countsOf x
        let sa1 := bucket_lms x asize sa.length counts is_s
        let sa2 := induce_l x asize sa1 counts is_s
        let sa3 := induce_s x asize sa2 counts is_s
        let r := reduce_lms x sa3 is_s
        let sa4 := r.1
        let k := r.2.1
        let red_asize := r.2.2
        let red := (sa4.drop k).take k
        let red_sa := sais_rec fuel red (sa4.take k) red_asize
        let sa5 := red_sa ++ sa4.drop k
        let is_s2 := classify_sl x
        let sa6 := reverse_reduction x asize sa5 k counts is_s2
        let sa7 := induce_l x asize sa6 counts is_s2
        induce_s x asize sa7 counts is_s2

/-- `sais_alphabet`: run SAIS on a mapped text over alphabet `alpha`. -/
def sais_alphabet (x : List Nat) (alpha : Alphabet) : List Int :=
  sais_rec (x.length + 1) (x.map (Int.ofNat)) (List.replicate x.length 0)
    alpha.size

/-- `sais`: run SAIS from a raw string. -/
def sais (xs : List Nat) : List Int :=
  let m := mapped_string_with_sentinel xs
  sais_alphabet m.1 m.2

/-! ### BWT, C/O tables, D table and the approximate search (`src/bwt.py`) -/

/-- `burrows_wheeler_transform`: map the text, build the suffix array
with SAIS, and read off `bwt[i] = x_[sa[i] - 1]` (Python indexing, so
`sa[i] = 0` wraps to the sentinel at the end).  Returns the transformed
string, the alphabet and the suffix array. -/
def burrows_wheeler_transform (xs : List Nat) :
    List Nat × Alphabet × List Int :=
  let m := mapped_string_with_sentinel xs
  let sa := sais_alphabet m.1 m.2
  let bwt := sa.map (fun j => pyget m.1 0 (j - 1))
  (bwt, m.2, sa)

/-- The BWT string read off a given suffix array (the comprehension
`bytearray(x_[j - 1] for j in sa)` of `burrows_wheeler_transform`). -/
def bwt_from_sa (x_ : List Nat) (sa : List Int) : List Nat :=
  sa.map (fun j => pyget x_ 0 (j - 1))

/-- `build_ctab` unrolled: entry `0` is `0` and entry `a + 1` adds the
number of occurrences of `a` in the BWT string to entry `a`. -/
def ctabAux (bwt : List Nat) : Nat → List Nat
  | 0 => [0]
  | a + 1 => ctabAux bwt a ++ [(ctabAux bwt a).getD a 0 + bwt.count a]

/-- `build_ctab`: the C table over alphabet size `asize`;
`ctab[a]` is the number of occurrences of letters `< a` in the BWT. -/
def build_ctab (bwt : List Nat) (asize : Nat) : List Nat :=
  match asize with
  | 0 => []
  | n + 1 => ctabAux bwt n

/-- Add the unit basis vector `e b` to a column (`char_add[:, b]`). -/
def addUnit (col : List Nat) (b : Nat) : List Nat :=
  lset col b (col.getD b 0 + 1)

/-- `build_otab` unrolled: the columns from `col` onward, each obtained
from its predecessor by adding the unit vector of the next BWT symbol
(`tbl[:, i] = tbl[:, i-1] + char_add[:, bwt[i-1]]`). -/
def otabFrom (col : List Nat) : List Nat → List (List Nat)
  | [] => [col]
  | b :: rest => col :: otabFrom (addUnit col b) rest

/-- `build_otab`: the O table as its list of `len(bwt) + 1` columns,
starting from the zero column. -/
def build_otab (bwt : List Nat) (asize : Nat) : List (List Nat) :=
  otabFrom (List.replicate asize 0) bwt

/-- Read `otab[a, i]` from the column list. -/
def otabGet (otab : List (List Nat)) (a i : Nat) : Nat :=
  (otab.getD i []).getD a 0

/-- The preprocessed FM-index tables (the `FMIndexTables` named tuple). -/
structure FMIndexTables where
  alpha : Alphabet
  sa : List Int
  ctab : List Nat
  otab : List (List Nat)
  rotab : List (List Nat)

/-- `preprocess_tables`: BWT the text for the forward tables and the
reversed text for the reverse occurrence table. -/
def preprocess_tables (xs : List Nat) : FMIndexTables :=
  let f := burrows_wheeler_transform xs
  let ctab := build_ctab f.1 f.2.1.size
  let otab := build_otab f.1 f.2.1.size
  let r := burrows_wheeler_transform xs.reverse
  let rotab := build_otab r.1 r.2.1.size
  ⟨f.2.1, f.2.2, ctab, otab, rotab⟩

/-- `build_dtab` unrolled: thread `(left, right, min_edits)` through the
pattern; when the reverse-index interval empties, bump `min_edits` and
reset the interval. -/
def dtabAux (ctab : List Nat) (rotab : List (List Nat)) (n : Nat) :
    List Nat → Nat → Nat → Nat → List Nat
  | [], _, _, _ => []
  | a :: rest, left, right, min_edits =>
      let left' := ctab.getD a 0 + otabGet rotab a left
      let right' := ctab.getD a 0 + otabGet rotab a right
      if left' = right' then
        (min_edits + 1) :: dtabAux ctab rotab n rest 0 n (min_edits + 1)
      else
        min_edits :: dtabAux ctab rotab n rest left' right' min_edits

/-- `build_dtab`: the D table for the approximate search; one extra
trailing slot holds `0` so that the Python read `dtab[-1]` is `0`. -/
def build_dtab (p : List Nat) (saLen : Nat) (ctab : List Nat)
    (rotab : List (List Nat)) : List Nat :=
  dtabAux ctab rotab saLen p 0 saLen 0 ++ [0]

/-- The error of the `assert` guarding `search` (raised on an empty
pattern), as a datatype. -/
inductive SearchErr where
  | emptyPattern
deriving DecidableEq, Repr

/-- The body of the `search` state machine, as the recursion it
iterates (each `MatchFrame` pushed by the source is one of the calls
below; `POP_NEXT`/`DONE` pop them in this exact order).  A node first
prunes (`left == right or max_edits < dtab[pos]`), reports a hit run
when the pattern is exhausted, and otherwise explores `MATCH` for each
real symbol in ascending order, then `INSERT`, then — unless nothing has
been recorded yet (`edits_idx == 0`) — `DELETE` for each real symbol.
`edits` is the recorded prefix `edits[:edits_idx]` of the edit buffer. -/
def searchRec (asize : Nat) (sa : List Int) (ctab : List Nat)
    (otab : List (List Nat)) (dtab : List Nat) (p : List Nat)
    (left right : Nat) (pos max_edits : Int) (edits : List Edit) :
    List (Int × Cigar) :=
  if h : left = right ∨ max_edits < ((pyget dtab 0 pos : Nat) : Int) then
    []
  else if h' : pos < 0 then
    (List.range' left (right - left)).map
      (fun j => (sa.getD j 0, edits_to_cigar edits.reverse))
  else
    ((List.range' 1 (asize - 1)).flatMap
      (fun a =>
        searchRec asize sa ctab otab dtab p
          (ctab.getD a 0 + otabGet otab a left)
          (ctab.getD a 0 + otabGet otab a right)
          (pos - 1)
          (max_edits - (if (a : Int) ≠ (p.getD pos.toNat 0 : Int) then 1 else 0))
          (edits ++ [Edit.MATCH])))
    ++ searchRec asize sa ctab otab dtab p left right (pos - 1) (max_edits - 1)
        (edits ++ [Edit.INSERT])
    ++ (if edits.length = 0 then []
        else (List.range' 1 (asize - 1)).flatMap
          (fun a =>
            searchRec asize sa ctab otab dtab p
              (ctab.getD a 0 + otabGet otab a left)
              (ctab.getD a 0 + otabGet otab a right)
              pos
              (max_edits - 1)
              (edits ++ [Edit.DELETE])))
  termination_by ((pos + 2).toNat + (max_edits + 2).toNat)
  decreasing_by
  · simp only [not_or, not_lt] at h h'
    have hd : (0 : Int) ≤ ((pyget dtab 0 pos : Nat) : Int) := Int.ofNat_nonneg _
    split_ifs <;> omega
  · simp only [not_or, not_lt] at h h'
    omega
  · simp only [not_or, not_lt] at h h'
    have hd : (0 : Int) ≤ ((pyget dtab 0 pos : Nat) : Int) := Int.ofNat_nonneg _
    omega

/-- Fuel-indexed copy of `searchRec`, structurally recursive so that
concrete runs reduce inside the kernel; `searchFuel_eq_searchRec` shows
it computes `searchRec` whenever the fuel exceeds the termination
measure. -/
def searchFuel (asize : Nat) (sa : List Int) (ctab : List Nat)
    (otab : List (List Nat)) (dtab : List Nat) (p : List Nat) :
    Nat → Nat → Nat → Int → Int → List Edit → List (Int × Cigar)
  | 0, _, _, _, _, _ => []
  | fuel + 1, left, right, pos, max_edits, edits =>
      if left = right ∨ max_edits < ((pyget dtab 0 pos : Nat) : Int) then
        []
      else if pos < 0 then
        (List.range' left (right - left)).map
          (fun j => (sa.getD j 0, edits_to_cigar edits.reverse))
      else
        ((List.range' 1 (asize - 1)).flatMap
          (fun a =>
            searchFuel asize sa ctab otab dtab p fuel
              (ctab.getD a 0 + otabGet otab a left)
              (ctab.getD a 0 + otabGet otab a right)
              (pos - 1)
              (max_edits -
                (if (a : Int) ≠ (p.getD pos.toNat 0 : Int) then 1 else 0))
              (edits ++ [Edit.MATCH])))
        ++ searchFuel asize sa ctab otab dtab p fuel left right (pos - 1)
            (max_edits - 1) (edits ++ [Edit.INSERT])
        ++ (if edits.length = 0 then []
            else (List.range' 1 (asize - 1)).flatMap
              (fun a =>
                searchFuel asize sa ctab otab dtab p fuel
                  (ctab.getD a 0 + otabGet otab a left)
                  (ctab.getD a 0 + otabGet otab a right)
                  pos
                  (max_edits - 1)
                  (edits ++ [Edit.DELETE])))

/-- `approx_searcher_from_tables`: the search function closed over the
preprocessed tables.  An empty pattern is rejected loudly (the
`assert`); a pattern with a character outside the alphabet maps to the
caught `KeyError`, an empty hit stream.  Otherwise the D table is built
and the traversal is seeded at the last pattern position with the full
suffix-array interval, an empty edit buffer and the caller's budget. -/
def approx_searcher_from_tables (alpha : Alphabet) (sa : List Int)
    (ctab : List Nat) (otab : List (List Nat)) (rotab : List (List Nat))
    (p_ : List Nat) (max_edits : Int) :
    Except SearchErr (List (Int × Cigar)) :=
  if p_.length = 0 then .error .emptyPattern
  else
    match alpha.map p_ with
    | none => .ok []
    | some p =>
        let dtab := build_dtab p sa.length ctab rotab
        .ok (searchRec alpha.size sa ctab otab dtab p
          0 sa.length ((p.length : Int) - 1) max_edits [])

/-- `approx_preprocess`: build the search function for a text. -/
def approx_preprocess (xs : List Nat) (p_ : List Nat) (max_edits : Int) :
    Except SearchErr (List (Int × Cigar)) :=
  let t := preprocess_tables xs
  approx_searcher_from_tables t.alpha t.sa t.ctab t.otab t.rotab p_ max_edits

/-! ### Specification-side notions used by the claims -/

/-- Are consecutive listed positions of `t` in strictly increasing
suffix order? -/
def chainLexB (t : List Nat) : List Nat → Bool
  | [] => true
  | [_] => true
  | i :: j :: rest => lexLt (t.drop i) (t.drop j) && chainLexB t (j :: rest)

/-- `sa` is a suffix array of `t` (§3): entries are non-negative, they
are a permutation of `0 .. n-1` (checked by sorting), and consecutive
entries point at lexicographically strictly increasing suffixes. -/
def isSuffixArray (t : List Nat) (sa : List Int) : Prop :=
  (∀ v ∈ sa, 0 ≤ v) ∧
  sortNats (sa.map Int.toNat) = List.range t.length ∧
  chainLexB t (sa.map Int.toNat) = true

instance (t : List Nat) (sa : List Int) : Decidable (isSuffixArray t sa) :=
  inferInstanceAs (Decidable ((∀ v ∈ sa, 0 ≤ v) ∧
    sortNats (sa.map Int.toNat) = List.range t.length ∧
    chainLexB t (sa.map Int.toNat) = true))

/-- Edit cost of a flat edit sequence (in text order) against the text
segment and pattern segment it consumes: `none` unless the operations
consume both segments exactly; a `MATCH` of unequal characters, an
`INSERT` and a `DELETE` cost one each. -/
def costOfEdits : List Edit → List Nat → List Nat → Option Nat
  | [], [], [] => some 0
  | Edit.MATCH :: ops, a :: t, b :: p =>
      (costOfEdits ops t p).map (fun c => c + if a = b then 0 else 1)
  | Edit.INSERT :: ops, t, _ :: p => (costOfEdits ops t p).map (· + 1)
  | Edit.DELETE :: ops, _ :: t, p => (costOfEdits ops t p).map (· + 1)
  | _, _, _ => none

/-- Strict decrease in the product order on `(pattern index, remaining
budget)` pairs, the termination measure named by the specification. -/
def prodLt (c p : Int × Int) : Prop :=
  c.1 ≤ p.1 ∧ c.2 ≤ p.2 ∧ (c.1 < p.1 ∨ c.2 < p.2)

/-- The child-node relation of the traversal: a strict product-order
decrease between states whose components are bounded below by `-1`
(the values reachable from a node that passed the pruning test). -/
def searchChildRel (c p : Int × Int) : Prop :=
  prodLt c p ∧ -1 ≤ c.1 ∧ -1 ≤ c.2

/-- Naive scan: every position of `t` where `p` occurs exactly. -/
def naiveOccs (t p : List Nat) : List Nat :=
  (List.range t.length).filter (fun i => prefB p (t.drop i))

/-- The positions of a hit list, deduplicated and sorted, for
set-comparison against the naive scan. -/
def hitPositions (hits : List (Int × Cigar)) : List Nat :=
  sortNats ((hits.map (fun h => h.1.toNat)).dedup)

/-- The `"mississippi"` test text of the repository's test suite. -/
def mississippi : List Nat :=
  [109, 105, 115, 115, 105, 115, 115, 105, 112, 112, 105]

/-! ## Theorems -/

/-! ### Basic lemmas about the embedding's primitives -/

theorem lset_length (l : List α) (i : Nat) (v : α) :
    (lset l i v).length = l.length := by
  induction l generalizing i with
  | nil => rfl
  | cons x xs ih =>
      cases i with
      | zero => rfl
      | succ i => simp [lset, ih]

theorem lset_getD_ne (l : List α) (i j : Nat) (v d : α) (h : i ≠ j) :
    (lset l i v).getD j d = l.getD j d := by
  induction l generalizing i j with
  | nil => rfl
  | cons x xs ih =>
      cases i with
      | zero =>
          cases j with
          | zero => exact absurd rfl h
          | succ j => rfl
      | succ i =>
          cases j with
          | zero => rfl
          | succ j => simpa [lset] using ih i j (by omega)

theorem lset_getD_eq (l : List α) (i : Nat) (v d : α) (h : i < l.length) :
    (lset l i v).getD i d = v := by
  induction l generalizing i with
  | nil => simp at h
  | cons x xs ih =>
      cases i with
      | zero => rfl
      | succ i => simpa [lset] using ih i (by simpa using h)

theorem cigar_to_edits_edits_to_cigar (l : List Edit) :
    cigar_to_edits (edits_to_cigar l) = l := by
  induction l with
  | nil => rfl
  | cons e rest ih =>
      simp only [edits_to_cigar]
      cases hc : edits_to_cigar rest with
      | nil =>
          simp only [hc] at ih
          simp [cigar_to_edits, ← ih]
      | cons r t =>
          obtain ⟨c, e'⟩ := r
          simp only [hc] at ih
          by_cases he : e = e'
          · subst he
            simp only [if_pos rfl]
            simp [cigar_to_edits, List.replicate_succ, ← ih]
          · simp [if_neg he, cigar_to_edits, ← ih]

theorem edits_to_cigar_eq_nil_iff (l : List Edit) :
    edits_to_cigar l = [] ↔ l = [] := by
  cases l with
  | nil => simp [edits_to_cigar]
  | cons e rest =>
      simp only [edits_to_cigar]
      constructor
      · intro h
        cases hc : edits_to_cigar rest with
        | nil => simp [hc] at h
        | cons r t =>
            obtain ⟨c, e'⟩ := r
            rw [hc] at h
            by_cases he : e = e' <;> simp [he] at h
      · intro h
        exact absurd h (by simp)

/-! ### C7: empty patterns are rejected loudly -/

/-- C7: invoking `search` on the empty pattern is rejected with an
error (the `assert` contract violation) for every edit budget; it is
never a normal invocation returning an empty hit stream. -/
theorem search_empty_pattern_rejected (alpha : Alphabet) (sa : List Int)
    (ctab : List Nat) (otab rotab : List (List Nat)) (k : Int) :
    approx_searcher_from_tables alpha sa ctab otab rotab [] k
      = .error SearchErr.emptyPattern ∧
    ∀ hits, approx_searcher_from_tables alpha sa ctab otab rotab [] k
      ≠ .ok hits := by
  refine ⟨rfl, ?_⟩
  intro hits h
  rw [show approx_searcher_from_tables alpha sa ctab otab rotab [] k
      = .error SearchErr.emptyPattern from rfl] at h
  exact Except.noConfusion h

/-! ### C8: unknown pattern symbols give an empty hit stream -/

/-- C8: a non-empty pattern containing a character absent from the
reference's alphabet yields the empty hit list (the caught `KeyError`),
not an error, for every edit budget. -/
theorem search_unknown_symbol_empty (T : List Nat) (sa : List Int)
    (ctab : List Nat) (otab rotab : List (List Nat)) (p_ : List Nat) (k : Int)
    (hne : p_ ≠ []) (hc : ∃ c ∈ p_, c ∉ (alphabetOf T).chars) :
    approx_searcher_from_tables (alphabetOf T) sa ctab otab rotab p_ k
      = .ok [] := by
  obtain ⟨c, hcp, hcn⟩ := hc
  have hlen : ¬ p_.length = 0 := by simpa using hne
  have hmap : (alphabetOf T).map p_ = none := by
    unfold Alphabet.map
    rw [if_neg]
    intro hall
    exact hcn (by simpa using (List.all_eq_true.mp hall c hcp))
  simp [approx_searcher_from_tables, hlen, hmap]

/-- C8 witness: on the text `"a"`, the pattern `"b"` is non-empty,
contains a character outside the alphabet, and yields no hits. -/
theorem search_unknown_symbol_empty_witness :
    ([98] : List Nat) ≠ [] ∧ (∃ c ∈ [98], c ∉ (alphabetOf [97]).chars) ∧
    approx_searcher_from_tables (alphabetOf [97]) [] [] [] [] [98] 0
      = .ok [] := by
  refine ⟨by decide, by decide, ?_⟩
  exact search_unknown_symbol_empty [97] [] [] [] [] [98] 0 (by decide)
    (by decide)

/-! ### C6: D-table monotonicity -/

theorem dtabAux_length (ctab : List Nat) (rotab : List (List Nat)) (n : Nat)
    (p : List Nat) (l r me : Nat) :
    (dtabAux ctab rotab n p l r me).length = p.length := by
  induction p generalizing l r me with
  | nil => rfl
  | cons a rest ih =>
      simp only [dtabAux]
      split <;> simp [ih]

theorem chain'_le_getD (l : List Nat) (h : List.Chain' (· ≤ ·) l) :
    ∀ i, i + 1 < l.length → l.getD i 0 ≤ l.getD (i + 1) 0 := by
  induction l with
  | nil => intro i hi; simp at hi
  | cons a rest ih =>
      intro i hi
      cases i with
      | zero =>
          cases rest with
          | nil => simp at hi
          | cons b r => exact (List.chain'_cons.mp h).1
      | succ i =>
          exact ih (List.Chain'.tail h) i (by simp only [List.length_cons] at hi; omega)

theorem dtabAux_chain (ctab : List Nat) (rotab : List (List Nat)) (n : Nat)
    (p : List Nat) (l r me : Nat) :
    List.Chain' (· ≤ ·) (me :: dtabAux ctab rotab n p l r me) := by
  induction p generalizing l r me with
  | nil => simp [dtabAux]
  | cons a rest ih =>
      simp only [dtabAux]
      split
      · exact List.Chain'.cons (by omega) (ih _ _ _)
      · exact List.Chain'.cons le_rfl (ih _ _ _)

/-- C6: for every pattern and tables, the D table of `build_dtab` is
monotone non-decreasing over the pattern positions, and the extra slot
consulted at virtual index `-1` (Python wrap-around) holds `0`. -/
theorem dtab_monotone (p : List Nat) (saLen : Nat) (ctab : List Nat)
    (rotab : List (List Nat)) :
    (∀ i, i + 1 < p.length →
      (build_dtab p saLen ctab rotab).getD i 0
        ≤ (build_dtab p saLen ctab rotab).getD (i + 1) 0) ∧
    (build_dtab p saLen ctab rotab).getD p.length 0 = 0 ∧
    pyget (build_dtab p saLen ctab rotab) 0 (-1) = 0 := by
  have hlen := dtabAux_length ctab rotab saLen p 0 saLen 0
  have hchain := dtabAux_chain ctab rotab saLen p 0 saLen 0
  refine ⟨?_, ?_, ?_⟩
  · intro i hi
    have hgl : ∀ j, j < p.length →
        (build_dtab p saLen ctab rotab).getD j 0
          = (dtabAux ctab rotab saLen p 0 saLen 0).getD j 0 := by
      intro j hj
      unfold build_dtab
      rw [List.getD_append _ _ _ _ (by omega)]
    rw [hgl i (by omega), hgl (i + 1) hi]
    exact chain'_le_getD (dtabAux ctab rotab saLen p 0 saLen 0)
      (List.Chain'.tail hchain) i (by omega)
  · unfold build_dtab
    rw [List.getD_append_right _ _ _ _ (by omega)]
    simp [hlen]
  · have hL : (build_dtab p saLen ctab rotab).length = p.length + 1 := by
      unfold build_dtab
      simp [hlen]
    unfold pyget
    rw [if_neg (by decide), hL]
    unfold build_dtab
    rw [List.getD_append_right _ _ _ _ (by rw [hlen]; norm_num)]
    rw [hlen]
    norm_num

/-- C6 witness: a concrete instantiation on the `"aabca"` tables with
pattern `"ab"`. -/
theorem dtab_monotone_witness :
    0 + 1 < ([1, 2] : List Nat).length ∧
    (build_dtab [1, 2] 6 [0, 1, 4, 5] [] ).getD 0 0
      ≤ (build_dtab [1, 2] 6 [0, 1, 4, 5] []).getD 1 0 := by
  exact ⟨by decide, (dtab_monotone [1, 2] 6 [0, 1, 4, 5] []).1 0 (by decide)⟩

/-! ### C5: C-table correctness -/

theorem filter_lt_succ_length (B : List Nat) (a : Nat) :
    (B.filter (fun b => b < a + 1)).length
      = (B.filter (fun b => b < a)).length + B.count a := by
  induction B with
  | nil => simp
  | cons b rest ih =>
      by_cases hba : b = a
      · subst hba
        simp only [List.filter_cons, List.count_cons]
        have h1 : decide (b < b + 1) = true := by simp
        have h2 : decide (b < b) = false := by simp
        simp [h1, h2, ih]
        omega
      · simp only [List.filter_cons, List.count_cons]
        by_cases hlt : b < a
        · have h1 : decide (b < a + 1) = true := by simp; omega
          have h2 : decide (b < a) = true := by simpa
          simp [h1, h2, ih, hba]
          omega
        · have h1 : decide (b < a + 1) = false := by simp; omega
          have h2 : decide (b < a) = false := by simp; omega
          simp [h1, h2, ih, hba]

theorem ctabAux_length (B : List Nat) (a : Nat) :
    (ctabAux B a).length = a + 1 := by
  induction a with
  | zero => rfl
  | succ a ih => simp [ctabAux, ih]

theorem ctabAux_getD (B : List Nat) (a : Nat) :
    ∀ i, i ≤ a → (ctabAux B a).getD i 0 = (B.filter (fun b => b < i)).length := by
  induction a with
  | zero =>
      intro i hi
      interval_cases i
      simp [ctabAux]
  | succ a ih =>
      intro i hi
      rcases Nat.lt_or_ge i (a + 1) with hlt | hge
      · rw [ctabAux, List.getD_append _ _ _ _ (by rw [ctabAux_length]; omega)]
        exact ih i (by omega)
      · have hieq : i = a + 1 := by omega
        subst hieq
        rw [ctabAux, List.getD_append_right _ _ _ _ (by rw [ctabAux_length])]
        rw [ctabAux_length, Nat.sub_self]
        show (ctabAux B a).getD a 0 + B.count a = _
        rw [ih a (le_refl a), filter_lt_succ_length]

theorem ctab_getD_filter (B : List Nat) (σ a : Nat) (hσ : 1 ≤ σ)
    (ha : a < σ) :
    (build_ctab B σ).getD a 0 = (B.filter (fun b => b < a)).length := by
  obtain ⟨m, rfl⟩ : ∃ m, σ = m + 1 := ⟨σ - 1, by omega⟩
  show (ctabAux B m).getD a 0 = _
  exact ctabAux_getD B m a (by omega)

/-- C5: `build_ctab B σ` satisfies `C[a] = |{j : B[j] < a}|` for every
`a < σ`, is monotone non-decreasing with `C[0] = 0`, and
`C[σ-1] + count(σ-1) = |B|` when `B` is over the alphabet `0..σ-1`;
in particular the pipeline on the text `"aabca"` (`σ = 4` with the
sentinel) produces the C table `[0, 1, 4, 5]`. -/
theorem ctab_correct (B : List Nat) (σ : Nat) (hσ : 1 ≤ σ)
    (hB : ∀ b ∈ B, b < σ) :
    (∀ a, a < σ → (build_ctab B σ).getD a 0
        = (B.filter (fun b => b < a)).length) ∧
    (∀ a, a + 1 < σ → (build_ctab B σ).getD a 0
        ≤ (build_ctab B σ).getD (a + 1) 0) ∧
    (build_ctab B σ).getD 0 0 = 0 ∧
    (build_ctab B σ).getD (σ - 1) 0 + B.count (σ - 1) = B.length ∧
    (build_ctab (burrows_wheeler_transform [97, 97, 98, 99, 97]).1
        (burrows_wheeler_transform [97, 97, 98, 99, 97]).2.1.size
      = [0, 1, 4, 5] ∧
     (burrows_wheeler_transform [97, 97, 98, 99, 97]).2.1.size = 4) := by
  obtain ⟨m, rfl⟩ : ∃ m, σ = m + 1 := ⟨σ - 1, by omega⟩
  have hgd : ∀ a, a < m + 1 → (build_ctab B (m + 1)).getD a 0
      = (B.filter (fun b => b < a)).length := by
    intro a ha
    exact ctab_getD_filter B (m + 1) a (by omega) ha
  refine ⟨hgd, ?_, ?_, ?_, by decide, by decide⟩
  · intro a ha
    rw [hgd a (by omega), hgd (a + 1) ha, filter_lt_succ_length]
    omega
  · rw [hgd 0 (by omega)]
    simp
  · rw [Nat.add_sub_cancel, hgd m (by omega), ← filter_lt_succ_length]
    have : B.filter (fun b => b < m + 1) = B := by
      apply List.filter_eq_self.mpr
      intro b hb
      simpa using hB b hb
    rw [this]

/-- C5 witness: the hypotheses discharged on the BWT of `"aabca"`. -/
theorem ctab_correct_witness :
    1 ≤ 4 ∧ (∀ b ∈ ([1, 3, 0, 1, 1, 2] : List Nat), b < 4) ∧
    (build_ctab [1, 3, 0, 1, 1, 2] 4).getD 2 0
      = (([1, 3, 0, 1, 1, 2] : List Nat).filter (fun b => b < 2)).length := by
  exact ⟨by decide, by decide,
    (ctab_correct [1, 3, 0, 1, 1, 2] 4 (by decide) (by decide)).1 2 (by decide)⟩

/-! ### C4: O-table correctness -/

theorem addUnit_length (col : List Nat) (b : Nat) :
    (addUnit col b).length = col.length := by
  simp [addUnit, lset_length]

theorem addUnit_getD (col : List Nat) (b a : Nat) (hb : b < col.length) :
    (addUnit col b).getD a 0 = col.getD a 0 + (if a = b then 1 else 0) := by
  by_cases hab : a = b
  · subst hab
    rw [addUnit, lset_getD_eq col a _ _ hb, if_pos rfl]
  · rw [addUnit, lset_getD_ne col b a _ _ (fun h => hab h.symm), if_neg hab]
    omega

theorem otabFrom_length (col : List Nat) (l : List Nat) :
    (otabFrom col l).length = l.length + 1 := by
  induction l generalizing col with
  | nil => rfl
  | cons b rest ih => simp [otabFrom, ih]

theorem otabFrom_mem_length (col : List Nat) (l : List Nat) :
    ∀ c ∈ otabFrom col l, c.length = col.length := by
  induction l generalizing col with
  | nil => simp [otabFrom]
  | cons b rest ih =>
      intro c hc
      simp only [otabFrom, List.mem_cons] at hc
      rcases hc with rfl | hc
      · rfl
      · rw [ih (addUnit col b) c hc, addUnit_length]

theorem otabFrom_getD (col : List Nat) (l : List Nat) :
    ∀ i, i ≤ l.length →
      (otabFrom col l).getD i [] = (l.take i).foldl addUnit col := by
  induction l generalizing col with
  | nil =>
      intro i hi
      have hz : i = 0 := by simpa using hi
      subst hz
      simp [otabFrom]
  | cons b rest ih =>
      intro i hi
      cases i with
      | zero => simp [otabFrom]
      | succ i =>
          simp only [otabFrom, List.take_succ_cons, List.foldl_cons]
          exact ih (addUnit col b) i (by simpa using hi)

theorem foldl_addUnit_getD (l : List Nat) (col : List Nat) (a : Nat)
    (hl : ∀ b ∈ l, b < col.length) :
    (l.foldl addUnit col).getD a 0 = col.getD a 0 + l.count a := by
  induction l generalizing col with
  | nil => simp
  | cons b rest ih =>
      simp only [List.foldl_cons, List.count_cons]
      rw [ih (addUnit col b) (by
        intro c hc
        rw [addUnit_length]
        exact hl c (List.mem_cons_of_mem b hc))]
      by_cases hb : b < col.length
      · rw [addUnit_getD col b a hb]
        by_cases hab : a = b <;> simp [hab, beq_iff_eq] <;> omega
      · exact absurd (hl b (List.mem_cons_self b rest)) hb

theorem sum_addUnit (col : List Nat) (b : Nat) (hb : b < col.length) :
    (addUnit col b).sum = col.sum + 1 := by
  induction col generalizing b with
  | nil => simp at hb
  | cons x rest ih =>
      cases b with
      | zero =>
          show ((x + 1) :: rest).sum = (x :: rest).sum + 1
          simp only [List.sum_cons]
          omega
      | succ b =>
          have hrec := ih b (by simpa using hb)
          show (x :: addUnit rest b).sum = (x :: rest).sum + 1
          simp only [List.sum_cons, hrec]
          omega

theorem sum_foldl_addUnit (l : List Nat) (col : List Nat)
    (hl : ∀ b ∈ l, b < col.length) :
    (l.foldl addUnit col).sum = col.sum + l.length := by
  induction l generalizing col with
  | nil => simp
  | cons b rest ih =>
      simp only [List.foldl_cons, List.length_cons]
      rw [ih (addUnit col b) (by
        intro c hc
        rw [addUnit_length]
        exact hl c (List.mem_cons_of_mem b hc))]
      rw [sum_addUnit col b (hl b (List.mem_cons_self b rest))]
      omega

theorem otab_count (B : List Nat) (σ : Nat) (hB : ∀ b ∈ B, b < σ) :
    ∀ a i, a < σ → i ≤ B.length →
    otabGet (build_otab B σ) a i = (B.take i).count a := by
  intro a i ha hi
  unfold otabGet build_otab
  rw [otabFrom_getD _ _ i hi]
  rw [foldl_addUnit_getD _ _ _ (by
    intro b hb
    simp only [List.length_replicate]
    exact hB b (List.mem_of_mem_take hb))]
  simp

/-- C4: `build_otab B σ` is a `σ × (n+1)` matrix (stored by columns)
with `O[a][i]` the number of occurrences of `a` in `B[0..i)`; its first
column is zero, each column differs from its predecessor by exactly a
unit basis vector, and the entries of the last column sum to `n`. -/
theorem otab_correct (B : List Nat) (σ : Nat) (hB : ∀ b ∈ B, b < σ) :
    (build_otab B σ).length = B.length + 1 ∧
    (∀ c ∈ build_otab B σ, c.length = σ) ∧
    (∀ a i, a < σ → i ≤ B.length →
        otabGet (build_otab B σ) a i = (B.take i).count a) ∧
    (∀ a, a < σ → otabGet (build_otab B σ) a 0 = 0) ∧
    (∀ i, i < B.length → ∃ b, b < σ ∧ ∀ a, a < σ →
        otabGet (build_otab B σ) a (i + 1)
          = otabGet (build_otab B σ) a i + (if a = b then 1 else 0)) ∧
    ((build_otab B σ).getD B.length []).sum = B.length := by
  have hrep : (List.replicate σ 0 : List Nat).length = σ := by simp
  have htake : ∀ i, i ≤ B.length → ∀ b ∈ B.take i, b < σ := by
    intro i hi b hb
    exact hB b (List.mem_of_mem_take hb)
  have hget : ∀ a i, a < σ → i ≤ B.length →
      otabGet (build_otab B σ) a i = (B.take i).count a :=
    otab_count B σ hB
  refine ⟨?_, ?_, hget, ?_, ?_, ?_⟩
  · exact otabFrom_length _ B
  · intro c hc
    rw [otabFrom_mem_length _ B c hc, hrep]
  · intro a ha
    rw [hget a 0 ha (by omega)]
    simp
  · intro i hi
    have hmem : B.getD i 0 ∈ B := by
      rw [List.getD_eq_getElem B 0 hi]
      exact List.getElem_mem hi
    refine ⟨B.getD i 0, hB _ hmem, ?_⟩
    intro a ha
    rw [hget a (i + 1) ha (by omega), hget a i ha (by omega)]
    rw [List.take_succ, List.getElem?_eq_getElem hi,
      ← List.getD_eq_getElem B 0 hi]
    rw [show (some (B.getD i 0)).toList = [B.getD i 0] from rfl]
    have hcnt : List.count a [B.getD i 0] = if a = B.getD i 0 then 1 else 0 := by
      by_cases hab : a = B.getD i 0
      · subst hab
        simp
      · rw [if_neg hab, List.count_eq_zero]
        simpa using hab
    rw [List.count_append, hcnt]
  · unfold build_otab
    rw [otabFrom_getD _ _ B.length (le_refl _), List.take_length]
    rw [sum_foldl_addUnit B _ (by
      intro b hb
      rw [hrep]
      exact hB b hb)]
    rw [List.sum_replicate, smul_zero, Nat.zero_add]

/-- C4 witness: the hypotheses discharged on the BWT of `"aabca"`. -/
theorem otab_correct_witness :
    (∀ b ∈ ([1, 3, 0, 1, 1, 2] : List Nat), b < 4) ∧
    otabGet (build_otab [1, 3, 0, 1, 1, 2] 4) 1 4
      = (([1, 3, 0, 1, 1, 2] : List Nat).take 4).count 1 := by
  exact ⟨by decide,
    (otab_correct [1, 3, 0, 1, 1, 2] 4 (by decide)).2.2.1 1 4 (by decide)
      (by decide)⟩

/-! ### The fuel-indexed search computes the search -/

theorem searchFuel_eq_searchRec (asize : Nat) (sa : List Int)
    (ctab : List Nat) (otab : List (List Nat)) (dtab : List Nat)
    (p : List Nat) :
    ∀ fuel left right (pos max_edits : Int) (edits : List Edit),
      (pos + 2).toNat + (max_edits + 2).toNat < fuel →
      searchFuel asize sa ctab otab dtab p fuel left right pos max_edits edits
        = searchRec asize sa ctab otab dtab p left right pos max_edits
            edits := by
  intro fuel
  induction fuel with
  | zero => intro left right pos me es hN; omega
  | succ fuel ih =>
      intro left right pos me es hN
      rw [searchRec]
      show (if left = right ∨ me < ((pyget dtab 0 pos : Nat) : Int) then []
        else _) = _
      by_cases h1 : left = right ∨ me < ((pyget dtab 0 pos : Nat) : Int)
      · rw [if_pos h1, dif_pos h1]
      · rw [if_neg h1, dif_neg h1]
        by_cases h2 : pos < 0
        · rw [if_pos h2, dif_pos h2]
        · rw [if_neg h2, dif_neg h2]
          push_neg at h1 h2
          have hd0 : (0 : Int) ≤ ((pyget dtab 0 pos : Nat) : Int) :=
            Int.ofNat_nonneg _
          have hM : (fun a =>
              searchFuel asize sa ctab otab dtab p fuel
                (ctab.getD a 0 + otabGet otab a left)
                (ctab.getD a 0 + otabGet otab a right)
                (pos - 1)
                (me - (if (a : Int) ≠ (p.getD pos.toNat 0 : Int) then 1 else 0))
                (es ++ [Edit.MATCH]))
              = (fun a =>
              searchRec asize sa ctab otab dtab p
                (ctab.getD a 0 + otabGet otab a left)
                (ctab.getD a 0 + otabGet otab a right)
                (pos - 1)
                (me - (if (a : Int) ≠ (p.getD pos.toNat 0 : Int) then 1 else 0))
                (es ++ [Edit.MATCH])) := by
            funext a
            refine ih _ _ _ _ _ (by split_ifs <;> omega)
          have hD : (fun a =>
              searchFuel asize sa ctab otab dtab p fuel
                (ctab.getD a 0 + otabGet otab a left)
                (ctab.getD a 0 + otabGet otab a right)
                pos (me - 1) (es ++ [Edit.DELETE]))
              = (fun a =>
              searchRec asize sa ctab otab dtab p
                (ctab.getD a 0 + otabGet otab a left)
                (ctab.getD a 0 + otabGet otab a right)
                pos (me - 1) (es ++ [Edit.DELETE])) := by
            funext a
            refine ih _ _ _ _ _ (by omega)
          rw [hM, hD, ih _ _ _ _ _ (by omega)]

/-! ### C9: no deletion at the forbidden boundary -/

theorem searchRec_no_final_delete (asize : Nat) (sa : List Int)
    (ctab : List Nat) (otab : List (List Nat)) (dtab : List Nat)
    (p : List Nat) :
    ∀ N left right (pos max_edits : Int) (edits : List Edit),
      ((pos + 2).toNat + (max_edits + 2).toNat) ≤ N →
      edits.head? ≠ some Edit.DELETE →
      (edits = [] → 0 ≤ pos) →
      ∀ hit ∈ searchRec asize sa ctab otab dtab p left right pos max_edits
          edits,
        ∃ es : List Edit, es ≠ [] ∧ es.head? ≠ some Edit.DELETE ∧
          hit.2 = edits_to_cigar es.reverse := by
  intro N
  induction N with
  | zero =>
      intro left right pos max_edits edits hN hh hr hit hmem
      rw [searchRec] at hmem
      have hpos : pos ≤ -2 := by omega
      rw [dif_pos] at hmem
      · simp at hmem
      · right
        have := Int.ofNat_nonneg (pyget dtab 0 pos)
        omega
  | succ N ih =>
      intro left right pos max_edits edits hN hh hr hit hmem
      rw [searchRec] at hmem
      by_cases hprune : left = right ∨
          max_edits < ((pyget dtab 0 pos : Nat) : Int)
      · rw [dif_pos hprune] at hmem
        simp at hmem
      · rw [dif_neg hprune] at hmem
        push_neg at hprune
        by_cases hdone : pos < 0
        · rw [dif_pos hdone] at hmem
          simp only [List.mem_map] at hmem
          obtain ⟨j, _, rfl⟩ := hmem
          refine ⟨edits, ?_, hh, rfl⟩
          intro hnil
          exact absurd (hr hnil) (by omega)
        · rw [dif_neg hdone] at hmem
          push_neg at hdone
          simp only [List.mem_append, List.mem_flatMap] at hmem
          have hd0 : (0 : Int) ≤ ((pyget dtab 0 pos : Nat) : Int) :=
            Int.ofNat_nonneg _
          rcases hmem with (⟨a, _, hmem⟩ | hmem) | hmem
          · refine ih _ _ _ _ _ (by
                have : (if (a : Int) ≠ (p.getD pos.toNat 0 : Nat) then (1 : Int)
                    else 0) = 0 ∨
                    (if (a : Int) ≠ (p.getD pos.toNat 0 : Nat) then (1 : Int)
                    else 0) = 1 := by
                  split <;> simp
                omega)
              (by simp [hh]) (by simp) hit hmem
          · exact ih _ _ _ _ _ (by omega) (by simp [hh]) (by simp) hit hmem
          · by_cases hz : edits.length = 0
            · rw [if_pos hz] at hmem
              simp at hmem
            · rw [if_neg hz] at hmem
              simp only [List.mem_flatMap] at hmem
              obtain ⟨a, _, hmem⟩ := hmem
              refine ih _ _ _ _ _ (by omega) ?_ (by simp) hit hmem
              cases edits with
              | nil => simp at hz
              | cons e t => simpa using hh

/-- C9: every hit yielded by `search` carries a non-empty CIGAR whose
final edit in text order is not a deletion: the `DELETE` operator is
never applied at the root of the traversal nor when nothing has been
recorded yet (the `edits_idx == 0` guard), and the first recorded (=
text-order last) operation of every yielded alignment is therefore `M`
or `I`. -/
theorem search_no_boundary_delete (alpha : Alphabet) (sa : List Int)
    (ctab : List Nat) (otab rotab : List (List Nat)) (p_ : List Nat) (k : Int)
    (hits : List (Int × Cigar))
    (hok : approx_searcher_from_tables alpha sa ctab otab rotab p_ k
      = .ok hits) :
    ∀ hit ∈ hits, hit.2 ≠ [] ∧
      (cigar_to_edits hit.2).getLast? ≠ some Edit.DELETE := by
  intro hit hmem
  unfold approx_searcher_from_tables at hok
  by_cases hz : p_.length = 0
  · rw [if_pos hz] at hok
    exact Except.noConfusion hok
  · rw [if_neg hz] at hok
    cases hmap : alpha.map p_ with
    | none =>
        rw [hmap] at hok
        obtain rfl : ([] : List (Int × Cigar)) = hits := by
          simpa using hok
        simp at hmem
    | some p =>
        rw [hmap] at hok
        have hp : p.length = p_.length := by
          unfold Alphabet.map at hmap
          by_cases hall : p_.all (fun c => c ∈ alpha.chars)
          · rw [if_pos hall] at hmap
            obtain rfl : p_.map alpha.mapChar = p := by simpa using hmap
            simp
          · rw [if_neg hall] at hmap
            exact Option.noConfusion hmap
        obtain rfl : searchRec alpha.size sa ctab otab
            (build_dtab p sa.length ctab rotab) p 0 sa.length
            ((p.length : Int) - 1) k [] = hits := by
          simpa using hok
        obtain ⟨es, hne, hhd, hcig⟩ :=
          searchRec_no_final_delete alpha.size sa ctab otab
            (build_dtab p sa.length ctab rotab) p
            ((((p.length : Int) - 1) + 2).toNat + (k + 2).toNat)
            0 sa.length ((p.length : Int) - 1) k [] le_rfl (by simp)
            (fun _ => by omega) hit hmem
        constructor
        · rw [hcig]
          intro hcnil
          have hrev : es.reverse = [] :=
            (edits_to_cigar_eq_nil_iff es.reverse).mp hcnil
          exact hne (by simpa using hrev)
        · rw [hcig, cigar_to_edits_edits_to_cigar, List.getLast?_reverse]
          exact hhd

/-- C9 witness: on concrete `"ab"` tables with pattern `"a"` and budget
1, the hit `(0, 1M)` is yielded, its CIGAR is non-empty and its last
text-order edit is not a deletion. -/
theorem search_no_boundary_delete_witness :
    approx_searcher_from_tables ⟨[97, 98]⟩ [2, 0, 1] [0, 1, 2]
        [[0, 0, 0], [0, 0, 1], [1, 0, 1], [1, 1, 1]] [] [97] 1
      = .ok [(0, [(1, Edit.MATCH)]), (1, [(1, Edit.MATCH)]),
             (2, [(1, Edit.INSERT)]), (0, [(1, Edit.INSERT)]),
             (1, [(1, Edit.INSERT)])] ∧
    (((0 : Int), ([(1, Edit.MATCH)] : Cigar)) ∈
      [((0 : Int), ([(1, Edit.MATCH)] : Cigar)), (1, [(1, Edit.MATCH)]),
       (2, [(1, Edit.INSERT)]), (0, [(1, Edit.INSERT)]),
       (1, [(1, Edit.INSERT)])]) ∧
    ([(1, Edit.MATCH)] : Cigar) ≠ [] ∧
    (cigar_to_edits [(1, Edit.MATCH)]).getLast? ≠ some Edit.DELETE := by
  have hok : approx_searcher_from_tables ⟨[97, 98]⟩ [2, 0, 1] [0, 1, 2]
      [[0, 0, 0], [0, 0, 1], [1, 0, 1], [1, 1, 1]] [] [97] 1
      = .ok [(0, [(1, Edit.MATCH)]), (1, [(1, Edit.MATCH)]),
             (2, [(1, Edit.INSERT)]), (0, [(1, Edit.INSERT)]),
             (1, [(1, Edit.INSERT)])] := by
    have h1 : searchFuel 3 [2, 0, 1] [0, 1, 2]
        [[0, 0, 0], [0, 0, 1], [1, 0, 1], [1, 1, 1]]
        (build_dtab [1] 3 [0, 1, 2] []) [1] 16 0 3 0 1 []
        = searchRec 3 [2, 0, 1] [0, 1, 2]
        [[0, 0, 0], [0, 0, 1], [1, 0, 1], [1, 1, 1]]
        (build_dtab [1] 3 [0, 1, 2] []) [1] 0 3 0 1 [] :=
      searchFuel_eq_searchRec _ _ _ _ _ _ 16 0 3 0 1 [] (by decide)
    have h2 : searchFuel 3 [2, 0, 1] [0, 1, 2]
        [[0, 0, 0], [0, 0, 1], [1, 0, 1], [1, 1, 1]]
        (build_dtab [1] 3 [0, 1, 2] []) [1] 16 0 3 0 1 []
        = [(0, [(1, Edit.MATCH)]), (1, [(1, Edit.MATCH)]),
           (2, [(1, Edit.INSERT)]), (0, [(1, Edit.INSERT)]),
           (1, [(1, Edit.INSERT)])] := by decide
    rw [show approx_searcher_from_tables ⟨[97, 98]⟩ [2, 0, 1] [0, 1, 2]
          [[0, 0, 0], [0, 0, 1], [1, 0, 1], [1, 1, 1]] [] [97] 1
        = .ok (searchRec 3 [2, 0, 1] [0, 1, 2]
          [[0, 0, 0], [0, 0, 1], [1, 0, 1], [1, 1, 1]]
          (build_dtab [1] 3 [0, 1, 2] []) [1] 0 3 0 1 []) from rfl]
    rw [← h1, h2]
  refine ⟨hok, by decide, ?_⟩
  exact search_no_boundary_delete ⟨[97, 98]⟩ [2, 0, 1] [0, 1, 2]
    [[0, 0, 0], [0, 0, 1], [1, 0, 1], [1, 1, 1]] [] [97] 1 _ hok
    (0, [(1, Edit.MATCH)]) (by decide)

/-! ### C10: termination of the traversal -/

/-- C10: the traversal terminates.  Each of the three operators of the
state machine strictly decreases `(pos, edits_left)` in the product
order — `M` moves to `(pos - 1, edits_left - δ)` with `δ ∈ {0, 1}`,
`I` to `(pos - 1, edits_left - 1)` and `D` to `(pos, edits_left - 1)` —
the child relation (product decrease with both components bounded below
by `-1`) is well-founded, and consequently every invocation of the
embedded traversal returns a finite list of hits and exhausts. -/
theorem search_terminates :
    (∀ (pos me δ : Int), 0 ≤ pos → 0 ≤ me → (δ = 0 ∨ δ = 1) →
        prodLt (pos - 1, me - δ) (pos, me) ∧
        prodLt (pos - 1, me - 1) (pos, me) ∧
        prodLt (pos, me - 1) (pos, me)) ∧
    WellFounded searchChildRel ∧
    (∀ (asize : Nat) (sa : List Int) (ctab : List Nat)
        (otab : List (List Nat)) (dtab p : List Nat) (left right : Nat)
        (pos me : Int) (es : List Edit),
      ∃ hits, searchRec asize sa ctab otab dtab p left right pos me es
        = hits) := by
  refine ⟨?_, ?_, fun _ _ _ _ _ _ _ _ _ _ _ => ⟨_, rfl⟩⟩
  · intro pos me δ h0 h1 hδ
    unfold prodLt
    refine ⟨⟨by omega, by omega, by omega⟩, ⟨by omega, by omega, by omega⟩,
      by omega, by omega, by omega⟩
  · have hsub : Subrelation searchChildRel
        (InvImage (· < ·) (fun c : Int × Int =>
          (c.1 + 1).toNat + (c.2 + 1).toNat)) := by
      intro c p h
      obtain ⟨⟨hle1, hle2, hstrict⟩, hb1, hb2⟩ := h
      show (c.1 + 1).toNat + (c.2 + 1).toNat
        < (p.1 + 1).toNat + (p.2 + 1).toNat
      omega
    exact Subrelation.wf hsub (InvImage.wf _ (Nat.lt_wfRel.wf))

/-- C10 witness: the product-order decrease instantiated at the root
state `(0, 0)` with a mismatching `M` step. -/
theorem search_terminates_witness :
    (0 : Int) ≤ 0 ∧ ((1 : Int) = 0 ∨ (1 : Int) = 1) ∧
    prodLt ((0 : Int) - 1, (0 : Int) - 1) (0, 0) := by
  exact ⟨le_rfl, Or.inr rfl,
    (search_terminates.1 0 0 1 le_rfl le_rfl (Or.inr rfl)).1⟩

/-! ### C3 support: the SAIS algorithm, decorator aside, sorts suffixes

The Python module as shipped cannot run at all — `sais_rec` carries a
bare `@profile` decorator with no `profile` in scope, so importing
`sais.py` raises `NameError` before any suffix array is produced.  The
theorems below evaluate the embedded algorithm (the decorator removed)
and confirm that the algorithm itself matches the specification at the
concrete inputs, including the failing input `sais("abc")`. -/

theorem sais_algorithm_concrete :
    sais [97, 98, 99] = [3, 0, 1, 2] ∧
    sais [99, 98, 97] = [3, 2, 1, 0] ∧
    sais [97, 99, 98] = [3, 0, 2, 1] ∧
    isSuffixArray (mapped_string_with_sentinel [97, 98, 99]).1
      (sais [97, 98, 99]) ∧
    isSuffixArray (mapped_string_with_sentinel mississippi).1
      (sais mississippi) ∧
    (sais mississippi).length = 12 ∧
    (sais mississippi).getD 0 0 = 11 := by
  decide

/-! ### C2 support: `"mississippi"` exact-match cross-check at `k = 0` -/

theorem searchRec_eval (asize : Nat) (sa : List Int) (ctab : List Nat)
    (otab : List (List Nat)) (dtab p : List Nat) (left right : Nat)
    (pos me : Int) (es : List Edit) (fuel : Nat)
    (hits : List (Int × Cigar))
    (h1 : (pos + 2).toNat + (me + 2).toNat < fuel)
    (h2 : searchFuel asize sa ctab otab dtab p fuel left right pos me es
      = hits) :
    searchRec asize sa ctab otab dtab p left right pos me es = hits := by
  rw [← searchFuel_eq_searchRec asize sa ctab otab dtab p fuel left right
    pos me es h1, h2]

theorem mississippi_k0_cross_check :
    (approx_preprocess mississippi [115, 105] 0
        = .ok [(6, [(2, Edit.MATCH)]), (3, [(2, Edit.MATCH)])] ∧
      hitPositions [(6, [(2, Edit.MATCH)]), (3, [(2, Edit.MATCH)])]
        = naiveOccs mississippi [115, 105]) ∧
    (approx_preprocess mississippi [112, 112, 105] 0
        = .ok [(8, [(3, Edit.MATCH)])] ∧
      hitPositions [(8, [(3, Edit.MATCH)])]
        = naiveOccs mississippi [112, 112, 105]) ∧
    (approx_preprocess mississippi [115, 115, 105] 0
        = .ok [(5, [(3, Edit.MATCH)]), (2, [(3, Edit.MATCH)])] ∧
      hitPositions [(5, [(3, Edit.MATCH)]), (2, [(3, Edit.MATCH)])]
        = naiveOccs mississippi [115, 115, 105]) ∧
    (approx_preprocess mississippi [112, 105, 112] 0 = .ok [] ∧
      hitPositions [] = naiveOccs mississippi [112, 105, 112]) ∧
    (approx_preprocess mississippi [120] 0 = .ok [] ∧
      hitPositions [] = naiveOccs mississippi [120]) := by
  refine ⟨⟨?_, by decide⟩, ⟨?_, by decide⟩, ⟨?_, by decide⟩,
    ⟨?_, by decide⟩, ⟨rfl, by decide⟩⟩
  · exact (show approx_preprocess mississippi [115, 105] 0
        = .ok (searchRec (alphabetOf mississippi).size
          (preprocess_tables mississippi).sa
          (preprocess_tables mississippi).ctab
          (preprocess_tables mississippi).otab
          (build_dtab [4, 1] (preprocess_tables mississippi).sa.length
            (preprocess_tables mississippi).ctab
            (preprocess_tables mississippi).rotab)
          [4, 1] 0 (preprocess_tables mississippi).sa.length 1 0 [])
        from rfl).trans
      (congrArg Except.ok (searchRec_eval _ _ _ _ _ _ _ _ _ _ _ 32 _
        (by decide) (by decide)))
  · exact (show approx_preprocess mississippi [112, 112, 105] 0
        = .ok (searchRec (alphabetOf mississippi).size
          (preprocess_tables mississippi).sa
          (preprocess_tables mississippi).ctab
          (preprocess_tables mississippi).otab
          (build_dtab [3, 3, 1] (preprocess_tables mississippi).sa.length
            (preprocess_tables mississippi).ctab
            (preprocess_tables mississippi).rotab)
          [3, 3, 1] 0 (preprocess_tables mississippi).sa.length 2 0 [])
        from rfl).trans
      (congrArg Except.ok (searchRec_eval _ _ _ _ _ _ _ _ _ _ _ 32 _
        (by decide) (by decide)))
  · exact (show approx_preprocess mississippi [115, 115, 105] 0
        = .ok (searchRec (alphabetOf mississippi).size
          (preprocess_tables mississippi).sa
          (preprocess_tables mississippi).ctab
          (preprocess_tables mississippi).otab
          (build_dtab [4, 4, 1] (preprocess_tables mississippi).sa.length
            (preprocess_tables mississippi).ctab
            (preprocess_tables mississippi).rotab)
          [4, 4, 1] 0 (preprocess_tables mississippi).sa.length 2 0 [])
        from rfl).trans
      (congrArg Except.ok (searchRec_eval _ _ _ _ _ _ _ _ _ _ _ 32 _
        (by decide) (by decide)))
  · exact (show approx_preprocess mississippi [112, 105, 112] 0
        = .ok (searchRec (alphabetOf mississippi).size
          (preprocess_tables mississippi).sa
          (preprocess_tables mississippi).ctab
          (preprocess_tables mississippi).otab
          (build_dtab [3, 1, 3] (preprocess_tables mississippi).sa.length
            (preprocess_tables mississippi).ctab
            (preprocess_tables mississippi).rotab)
          [3, 1, 3] 0 (preprocess_tables mississippi).sa.length 2 0 [])
        from rfl).trans
      (congrArg Except.ok (searchRec_eval _ _ _ _ _ _ _ _ _ _ _ 32 _
        (by decide) (by decide)))

/-! ### C1 development: order, prefix and index lemmas -/

theorem lexLt_irrefl : ∀ l : List Nat, lexLt l l = false := by
  intro l
  induction l with
  | nil => rfl
  | cons a as ih => simp [lexLt, ih]

theorem lexLt_trans : ∀ {a b c : List Nat},
    lexLt a b = true → lexLt b c = true → lexLt a c = true := by
  intro a
  induction a with
  | nil =>
      intro b c hab hbc
      cases b with
      | nil => simp [lexLt] at hab
      | cons y ys =>
          cases c with
          | nil => simp [lexLt] at hbc
          | cons z zs => rfl
  | cons x xs ih =>
      intro b c hab hbc
      cases b with
      | nil => simp [lexLt] at hab
      | cons y ys =>
          cases c with
          | nil => simp [lexLt] at hbc
          | cons z zs =>
              simp only [lexLt, Bool.or_eq_true, Bool.and_eq_true,
                decide_eq_true_eq] at hab hbc ⊢
              rcases hab with h1 | ⟨h1, h1'⟩ <;>
                rcases hbc with h2 | ⟨h2, h2'⟩
              · exact Or.inl (by omega)
              · exact Or.inl (by omega)
              · exact Or.inl (by omega)
              · exact Or.inr ⟨by omega, ih h1' h2'⟩

theorem lexLt_asymm {a b : List Nat} (h : lexLt a b = true) :
    lexLt b a = false := by
  by_contra hb
  rw [Bool.not_eq_false] at hb
  have := lexLt_trans h hb
  rw [lexLt_irrefl] at this
  exact Bool.noConfusion this

theorem lexLt_head_le {x y : Nat} {xs ys : List Nat}
    (h : lexLt (x :: xs) (y :: ys) = true) : x ≤ y := by
  simp only [lexLt, Bool.or_eq_true, Bool.and_eq_true,
    decide_eq_true_eq] at h
  rcases h with h | ⟨h, _⟩ <;> omega

theorem lexLt_cons_same {c : Nat} {xs ys : List Nat} :
    lexLt (c :: xs) (c :: ys) = lexLt xs ys := by
  simp [lexLt]

theorem prefB_exists : ∀ {s l : List Nat},
    prefB s l = true ↔ ∃ r, l = s ++ r := by
  intro s
  induction s with
  | nil => intro l; simp [prefB]
  | cons a as ih =>
      intro l
      cases l with
      | nil =>
          simp only [prefB]
          constructor
          · intro h
            exact Bool.noConfusion h
          · rintro ⟨r, hr⟩
            exact List.noConfusion hr
      | cons b bs =>
          simp only [prefB, Bool.and_eq_true, decide_eq_true_eq, ih]
          constructor
          · rintro ⟨rfl, r, rfl⟩
            exact ⟨r, rfl⟩
          · rintro ⟨r, hr⟩
            obtain ⟨rfl, rfl⟩ : b = a ∧ bs = as ++ r := by
              constructor <;> injection hr <;> simp_all
            exact ⟨rfl, r, rfl⟩

theorem prefB_between : ∀ {s x y z : List Nat},
    prefB s x = true → prefB s z = true →
    (x = y ∨ lexLt x y = true) → (y = z ∨ lexLt y z = true) →
    prefB s y = true := by
  intro s
  induction s with
  | nil => intro x y z _ _ _ _; rfl
  | cons c s' ih =>
      intro x y z hx hz hxy hyz
      rcases hxy with rfl | hxy
      · exact hx
      rcases hyz with rfl | hyz
      · exact hz
      cases x with
      | nil => simp [prefB] at hx
      | cons xa xs =>
          cases z with
          | nil => simp [prefB] at hz
          | cons za zs =>
              simp only [prefB, Bool.and_eq_true, decide_eq_true_eq] at hx hz
              obtain ⟨hxa, hx'⟩ := hx
              obtain ⟨hza, hz'⟩ := hz
              cases y with
              | nil => simp [lexLt] at hxy
              | cons ya ys =>
                  have h1 : xa ≤ ya := lexLt_head_le hxy
                  have h2 : ya ≤ za := lexLt_head_le hyz
                  have hya : ya = c := by omega
                  subst hya
                  subst hxa
                  subst hza
                  rw [lexLt_cons_same] at hxy hyz
                  simp only [prefB, Bool.and_eq_true, decide_eq_true_eq]
                  exact ⟨by trivial, ih hx' hz' (Or.inr hxy) (Or.inr hyz)⟩

theorem posIn_lt_of_mem {l : List Nat} {v : Nat} (h : v ∈ l) :
    posIn l v < l.length := by
  induction l with
  | nil => simp at h
  | cons a as ih =>
      simp only [posIn]
      by_cases hav : a = v
      · simp [hav]
      · have : v ∈ as := by
          rcases List.mem_cons.mp h with rfl | h'
          · exact absurd rfl hav
          · exact h'
        simp only [if_neg hav, List.length_cons]
        exact Nat.succ_lt_succ (ih this)

theorem getD_posIn {l : List Nat} {v : Nat} (h : v ∈ l) :
    l.getD (posIn l v) 0 = v := by
  induction l with
  | nil => simp at h
  | cons a as ih =>
      simp only [posIn]
      by_cases hav : a = v
      · simp [hav]
      · have : v ∈ as := by
          rcases List.mem_cons.mp h with rfl | h'
          · exact absurd rfl hav
          · exact h'
        simp only [if_neg hav, List.getD_cons_succ]
        exact ih this

theorem posIn_getD {l : List Nat} (hl : l.Nodup) :
    ∀ {i : Nat}, i < l.length → posIn l (l.getD i 0) = i := by
  induction l with
  | nil => intro i hi; simp at hi
  | cons a as ih =>
      intro i hi
      cases i with
      | zero => simp [posIn]
      | succ i =>
          simp only [List.getD_cons_succ, posIn]
          have hmem : as.getD i 0 ∈ as := by
            rw [List.getD_eq_getElem as 0 (by simpa using hi)]
            exact List.getElem_mem _
          rw [if_neg, ih (List.Nodup.of_cons hl) (by simpa using hi)]
          intro hav
          exact (List.nodup_cons.mp hl).1 (hav ▸ hmem)

theorem insertSorted_perm (a : Nat) (l : List Nat) :
    List.Perm (insertSorted a l) (a :: l) := by
  induction l with
  | nil => rfl
  | cons b bs ih =>
      simp only [insertSorted]
      split
      · exact List.Perm.refl _
      · exact (List.Perm.cons b ih).trans (List.Perm.swap a b bs)

theorem sortNats_perm (l : List Nat) : List.Perm (sortNats l) l := by
  induction l with
  | nil => rfl
  | cons a as ih =>
      exact (insertSorted_perm a (sortNats as)).trans (List.Perm.cons a ih)

/-! ### C1 development: counting over prefixes -/

theorem map_getD_range (t : List Nat) :
    ∀ m, m ≤ t.length →
      (List.range m).map (fun i => t.getD i 0) = t.take m := by
  intro m
  induction m with
  | zero => intro _; simp
  | succ m ih =>
      intro hm
      rw [List.range_succ, List.map_append, ih (by omega), List.take_succ]
      simp [List.getElem?_eq_getElem (show m < t.length by omega),
        List.getD_eq_getElem t 0 (show m < t.length by omega)]

theorem pairwise_getD {R : Nat → Nat → Prop} :
    ∀ {l : List Nat}, List.Pairwise R l →
      ∀ i j, i < j → j < l.length → R (l.getD i 0) (l.getD j 0) := by
  intro l
  induction l with
  | nil => intro _ i j _ hj; simp at hj
  | cons a as ih =>
      intro hp i j hij hj
      cases i with
      | zero =>
          obtain ⟨j', rfl⟩ : ∃ j', j = j' + 1 := ⟨j - 1, by omega⟩
          simp only [List.getD_cons_zero, List.getD_cons_succ]
          apply (List.pairwise_cons.mp hp).1
          rw [List.getD_eq_getElem as 0 (by simpa using hj)]
          exact List.getElem_mem _
      | succ i =>
          obtain ⟨j', rfl⟩ : ∃ j', j = j' + 1 := ⟨j - 1, by omega⟩
          simp only [List.getD_cons_succ]
          exact ih (List.pairwise_cons.mp hp).2 i j' (by omega)
            (by simpa using hj)

theorem chainLexB_chain' (t : List Nat) :
    ∀ {l : List Nat}, chainLexB t l = true →
      List.Chain' (fun i j => lexLt (t.drop i) (t.drop j) = true) l := by
  intro l
  induction l with
  | nil => intro _; exact List.chain'_nil
  | cons i l' ih =>
      intro h
      cases l' with
      | nil => simp
      | cons j rest =>
          simp only [chainLexB, Bool.and_eq_true] at h
          exact List.Chain'.cons h.1 (ih h.2)

theorem chainLexB_pairwise (t : List Nat) {l : List Nat}
    (h : chainLexB t l = true) :
    List.Pairwise (fun i j => lexLt (t.drop i) (t.drop j) = true) l := by
  haveI : IsTrans Nat (fun i j => lexLt (t.drop i) (t.drop j) = true) :=
    ⟨fun _ _ _ hab hbc => lexLt_trans hab hbc⟩
  exact List.chain'_iff_pairwise.mp (chainLexB_chain' t h)

theorem count_take_le (a : Nat) :
    ∀ (B : List Nat) (i1 i2 : Nat), i1 ≤ i2 →
      (B.take i1).count a ≤ (B.take i2).count a := by
  intro B
  induction B with
  | nil => intro i1 i2 _; simp
  | cons b bs ih =>
      intro i1 i2 h
      cases i1 with
      | zero => simp
      | succ i1 =>
          obtain ⟨i2', rfl⟩ : ∃ i2', i2 = i2' + 1 := ⟨i2 - 1, by omega⟩
          simp only [List.take_succ_cons, List.count_cons]
          have := ih i1 i2' (by omega)
          omega

theorem count_take_succ (B : List Nat) (a i : Nat) (hi : i < B.length) :
    (B.take (i + 1)).count a
      = (B.take i).count a + (if B.getD i 0 = a then 1 else 0) := by
  rw [List.take_succ, List.getElem?_eq_getElem hi,
    ← List.getD_eq_getElem B 0 hi]
  rw [show (some (B.getD i 0)).toList = [B.getD i 0] from rfl]
  have hcnt : List.count a [B.getD i 0] = if B.getD i 0 = a then 1 else 0 := by
    by_cases hab : B.getD i 0 = a
    · subst hab
      simp
    · rw [if_neg hab, List.count_eq_zero]
      intro hx
      have hax : a = B.getD i 0 := by simpa using hx
      exact hab hax.symm
  rw [List.count_append, hcnt]

theorem count_take_exists (a : Nat) :
    ∀ (R : Nat) (B : List Nat) (r : Nat), r < (B.take R).count a →
      ∃ j, j < R ∧ j < B.length ∧ B.getD j 0 = a ∧ (B.take j).count a = r := by
  intro R
  induction R with
  | zero => intro B r h; simp at h
  | succ R ih =>
      intro B r h
      by_cases hR : R < B.length
      · by_cases hr : r < (B.take R).count a
        · obtain ⟨j, h1, h2, h3, h4⟩ := ih B r hr
          exact ⟨j, by omega, h2, h3, h4⟩
        · rw [count_take_succ B a R hR] at h
          by_cases hBa : B.getD R 0 = a
          · rw [if_pos hBa] at h
            exact ⟨R, by omega, hR, hBa, by omega⟩
          · rw [if_neg hBa] at h
            omega
      · rw [show B.take (R + 1) = B.take R from by
          rw [List.take_of_length_le (by omega),
            List.take_of_length_le (by omega)]] at h
        obtain ⟨j, h1, h2, h3, h4⟩ := ih B r h
        exact ⟨j, by omega, h2, h3, h4⟩

theorem le_of_count_take_le (B : List Nat) (a L j : Nat)
    (hj : j < B.length) (hBa : B.getD j 0 = a)
    (h : (B.take L).count a ≤ (B.take j).count a) : L ≤ j := by
  by_contra hLj
  push_neg at hLj
  have h1 : (B.take (j + 1)).count a ≤ (B.take L).count a :=
    count_take_le a B (j + 1) L (by omega)
  rw [count_take_succ B a j hj, if_pos hBa] at h1
  omega

theorem lt_of_count_take_lt (B : List Nat) (a R j : Nat)
    (h : (B.take j).count a < (B.take R).count a) : j < R := by
  by_contra hRj
  push_neg at hRj
  have := count_take_le a B R j hRj
  omega

theorem countP_le_iff_monotone (p : Nat → Bool) :
    ∀ (l : List Nat), List.Pairwise (· ≤ ·) l →
      (∀ x y, x ≤ y → p y = true → p x = true) →
      ∀ i, i < l.length →
        ((p (l.getD i 0) = true → i < l.countP p) ∧
         (p (l.getD i 0) = false → l.countP p ≤ i)) := by
  intro l
  induction l with
  | nil => intro _ _ i hi; simp at hi
  | cons b bs ih =>
      intro hpair hmono i hi
      have hp' := (List.pairwise_cons.mp hpair).2
      have hble := (List.pairwise_cons.mp hpair).1
      cases i with
      | zero =>
          constructor
          · intro hpb
            simp only [List.getD_cons_zero] at hpb
            rw [List.countP_cons, if_pos hpb]
            omega
          · intro hpb
            simp only [List.getD_cons_zero] at hpb
            rw [List.countP_cons, if_neg (by simp [hpb])]
            have hz : bs.countP p = 0 := by
              rw [List.countP_eq_length_filter, List.length_eq_zero,
                List.filter_eq_nil]
              intro x hx hpx
              have hbx : b ≤ x := hble x hx
              have := hmono b x hbx hpx
              rw [this] at hpb
              exact Bool.noConfusion hpb
            omega
      | succ i =>
          have hrec := ih hp' hmono i (by simpa using hi)
          simp only [List.getD_cons_succ] at *
          constructor
          · intro hpi
            rw [List.countP_cons]
            have h1 := hrec.1 hpi
            by_cases hpb : p b = true
            · rw [if_pos hpb]
              omega
            · have hmem : bs.getD i 0 ∈ bs := by
                rw [List.getD_eq_getElem bs 0 (by simpa using hi)]
                exact List.getElem_mem _
              have := hmono b (bs.getD i 0) (hble _ hmem) hpi
              exact absurd this hpb
          · intro hpi
            rw [List.countP_cons]
            have h2 := hrec.2 hpi
            split <;> omega

/-! ### C1 development: consequences of the suffix-array predicate -/

theorem saN_perm_range {t saN : List Nat}
    (hperm : sortNats saN = List.range t.length) :
    List.Perm saN (List.range t.length) := by
  have h := sortNats_perm saN
  rw [hperm] at h
  exact h.symm

theorem saN_length {t saN : List Nat}
    (hperm : sortNats saN = List.range t.length) :
    saN.length = t.length := by
  have := (saN_perm_range hperm).length_eq
  simpa using this

theorem saN_nodup {t saN : List Nat}
    (hperm : sortNats saN = List.range t.length) : saN.Nodup :=
  (saN_perm_range hperm).nodup_iff.mpr (List.nodup_range _)

theorem saN_getD_lt {t saN : List Nat}
    (hperm : sortNats saN = List.range t.length) {j : Nat}
    (hj : j < saN.length) : saN.getD j 0 < t.length := by
  have hmem : saN.getD j 0 ∈ saN := by
    rw [List.getD_eq_getElem saN 0 hj]
    exact List.getElem_mem _
  have := (saN_perm_range hperm).mem_iff.mp hmem
  simpa using this

theorem mem_saN {t saN : List Nat}
    (hperm : sortNats saN = List.range t.length) {p : Nat}
    (hp : p < t.length) : p ∈ saN :=
  (saN_perm_range hperm).mem_iff.mpr (List.mem_range.mpr hp)

theorem saN_sorted {t saN : List Nat}
    (hchain : chainLexB t saN = true) {j1 j2 : Nat}
    (h12 : j1 < j2) (h2 : j2 < saN.length) :
    lexLt (t.drop (saN.getD j1 0)) (t.drop (saN.getD j2 0)) = true :=
  pairwise_getD (chainLexB_pairwise t hchain) j1 j2 h12 h2

theorem saN_lt_of_lex {t saN : List Nat}
    (hchain : chainLexB t saN = true) {j1 j2 : Nat}
    (h1 : j1 < saN.length) (h2 : j2 < saN.length)
    (hlex : lexLt (t.drop (saN.getD j1 0)) (t.drop (saN.getD j2 0)) = true) :
    j1 < j2 := by
  rcases Nat.lt_trichotomy j1 j2 with h | h | h
  · exact h
  · subst h
    rw [lexLt_irrefl] at hlex
    exact Bool.noConfusion hlex
  · have := saN_sorted hchain h h1
    rw [lexLt_asymm this] at hlex
    exact Bool.noConfusion hlex

theorem drop_getD_cons {t : List Nat} {p : Nat} (hp : p < t.length) :
    t.drop p = t.getD p 0 :: t.drop (p + 1) := by
  rw [List.drop_eq_getElem_cons hp, List.getD_eq_getElem t 0 hp]

/-! ### C1 development: the BWT string read off the suffix array -/

theorem bwt_from_sa_eq_map {t : List Nat} {saI : List Int}
    (hv : ∀ v ∈ saI, 0 ≤ v) :
    bwt_from_sa t saI = (saI.map Int.toNat).map
      (fun j => if j = 0 then t.getD (t.length - 1) 0
                else t.getD (j - 1) 0) := by
  unfold bwt_from_sa
  rw [List.map_map]
  apply List.map_congr_left
  intro v hvmem
  have h0 := hv v hvmem
  show pyget t 0 (v - 1) = _
  by_cases hz : v = 0
  · subst hz
    unfold pyget
    rw [if_neg (by decide)]
    simp
  · have h1 : (1 : Int) ≤ v := by omega
    unfold pyget
    rw [if_pos (show (0 : Int) ≤ v - 1 by omega)]
    have h2 : (v - 1).toNat = v.toNat - 1 := by omega
    have h3 : ¬ v.toNat = 0 := by omega
    simp only [Function.comp_apply]
    rw [if_neg h3, h2]

theorem bwt_from_sa_length {t : List Nat} {saI : List Int} :
    (bwt_from_sa t saI).length = saI.length := by
  unfold bwt_from_sa
  simp

theorem bwt_getD {t : List Nat} {saI : List Int}
    (hv : ∀ v ∈ saI, 0 ≤ v) {j : Nat} (hj : j < saI.length) :
    (bwt_from_sa t saI).getD j 0
      = (if (saI.map Int.toNat).getD j 0 = 0 then t.getD (t.length - 1) 0
         else t.getD ((saI.map Int.toNat).getD j 0 - 1) 0) := by
  have hj' : j < (saI.map Int.toNat).length := by simpa using hj
  rw [bwt_from_sa_eq_map hv]
  rw [List.getD_eq_getElem _ 0 (by simpa using hj), List.getElem_map,
    ← List.getD_eq_getElem _ 0 hj']

theorem perm_cons_rotate {x : Nat} {l : List Nat} :
    List.Perm (x :: l) (l ++ [x]) :=
  (List.perm_append_singleton x l).symm

theorem bwt_perm {t : List Nat} {saI : List Int}
    (hv : ∀ v ∈ saI, 0 ≤ v)
    (hperm : sortNats (saI.map Int.toNat) = List.range t.length)
    (hne : t ≠ []) :
    List.Perm (bwt_from_sa t saI) t := by
  set f : Nat → Nat := fun j => if j = 0 then t.getD (t.length - 1) 0
    else t.getD (j - 1) 0 with hf
  rw [bwt_from_sa_eq_map hv]
  have hp : List.Perm ((saI.map Int.toNat).map f)
      ((List.range t.length).map f) :=
    (saN_perm_range hperm).map f
  refine hp.trans ?_
  obtain ⟨m, hm⟩ : ∃ m, t.length = m + 1 := by
    cases t with
    | nil => exact absurd rfl hne
    | cons a l => exact ⟨l.length, by simp⟩
  rw [hm]
  rw [List.range_succ_eq_map]
  rw [List.map_cons, List.map_map]
  have h0 : f 0 = t.getD m 0 := by
    simp [hf, hm]
  have hrest : (List.range m).map (f ∘ Nat.succ)
      = (List.range m).map (fun i => t.getD i 0) := by
    apply List.map_congr_left
    intro i _
    simp [hf]
  rw [h0, hrest, map_getD_range t m (by omega)]
  have hsplit : List.Perm (t.getD m 0 :: t.take m)
      (t.take m ++ [t.getD m 0]) := perm_cons_rotate
  refine hsplit.trans ?_
  have htail : t.take m ++ [t.getD m 0] = t := by
    rw [List.getD_eq_getElem t 0 (show m < t.length by omega)]
    rw [show [t[m]] = t[m]?.toList from by
      rw [List.getElem?_eq_getElem (show m < t.length by omega)]
      rfl]
    rw [← List.take_succ, ← hm, List.take_length]
  rw [htail]

/-! ### C1 development: the first-character block of the suffix array -/

theorem getD_map_lt {f : Nat → Nat} {l : List Nat} {j : Nat}
    (hj : j < l.length) (d1 d2 : Nat) :
    (l.map f).getD j d1 = f (l.getD j d2) := by
  rw [List.getD_eq_getElem _ d1 (by simpa using hj), List.getElem_map,
    List.getD_eq_getElem _ d2 hj]

theorem countP_le_split (t : List Nat) (a : Nat) :
    t.countP (fun x => x ≤ a) = t.countP (fun x => x < a) + t.count a := by
  have h1 : (fun x : Nat => (decide (x ≤ a) : Bool))
      = (fun x : Nat => (decide (x < a + 1) : Bool)) :=
    funext fun x => decide_eq_decide.mpr (by omega)
  show t.countP (fun x => decide (x ≤ a)) = _
  rw [h1]
  rw [List.countP_eq_length_filter, List.countP_eq_length_filter]
  exact filter_lt_succ_length t a

theorem block_iff (t saN : List Nat) (a : Nat)
    (hperm : sortNats saN = List.range t.length)
    (hchain : chainLexB t saN = true) {m : Nat} (hm : m < saN.length) :
    t.getD (saN.getD m 0) 0 = a ↔
      (t.countP (fun x => x < a) ≤ m ∧
       m < t.countP (fun x => x < a) + t.count a) := by
  have hn : saN.length = t.length := saN_length hperm
  have hflen : (saN.map (fun p => t.getD p 0)).length = saN.length := by simp
  have hfm : (saN.map (fun p => t.getD p 0)).getD m 0
      = t.getD (saN.getD m 0) 0 := getD_map_lt hm 0 0
  have hfperm : List.Perm (saN.map (fun p => t.getD p 0)) t := by
    have h1 : List.Perm (saN.map (fun p => t.getD p 0))
        ((List.range t.length).map (fun p => t.getD p 0)) :=
      (saN_perm_range hperm).map _
    rw [map_getD_range t t.length le_rfl, List.take_length] at h1
    exact h1
  have hfpair : List.Pairwise (· ≤ ·) (saN.map (fun p => t.getD p 0)) := by
    rw [List.pairwise_map]
    have hpw := chainLexB_pairwise t hchain
    refine List.Pairwise.imp_of_mem ?_ hpw
    intro p q hp hq hlex
    have hpn : p < t.length := by
      have := (saN_perm_range hperm).mem_iff.mp hp
      simpa using this
    have hqn : q < t.length := by
      have := (saN_perm_range hperm).mem_iff.mp hq
      simpa using this
    rw [drop_getD_cons hpn, drop_getD_cons hqn] at hlex
    exact lexLt_head_le hlex
  have hcountP : ∀ p : Nat → Bool,
      (saN.map (fun p => t.getD p 0)).countP p = t.countP p :=
    fun p => hfperm.countP_eq p
  have hcount : (saN.map (fun p => t.getD p 0)).count a = t.count a :=
    hfperm.count_eq a
  have hmono1 : ∀ x y : Nat, x ≤ y →
      (fun z : Nat => (decide (z < a) : Bool)) y = true →
      (fun z : Nat => (decide (z < a) : Bool)) x = true := by
    intro x y hxy hy
    simp only [decide_eq_true_eq] at hy ⊢
    omega
  have hmono2 : ∀ x y : Nat, x ≤ y →
      (fun z : Nat => (decide (z ≤ a) : Bool)) y = true →
      (fun z : Nat => (decide (z ≤ a) : Bool)) x = true := by
    intro x y hxy hy
    simp only [decide_eq_true_eq] at hy ⊢
    omega
  have hlt := countP_le_iff_monotone (fun z : Nat => decide (z < a)) _
    hfpair hmono1 m (by omega)
  have hle := countP_le_iff_monotone (fun z : Nat => decide (z ≤ a)) _
    hfpair hmono2 m (by omega)
  rw [hfm] at hlt hle
  rw [hcountP] at hlt hle
  have hsplit := countP_le_split t a
  constructor
  · intro hfc
    constructor
    · have hdec : (decide (t.getD (saN.getD m 0) 0 < a) : Bool) = false := by
        rw [decide_eq_false_iff_not]
        omega
      exact hlt.2 hdec
    · have hdec : (decide (t.getD (saN.getD m 0) 0 ≤ a) : Bool) = true :=
        decide_eq_true (by omega)
      have h1 := hle.1 hdec
      rw [hsplit] at h1
      exact h1
  · rintro ⟨h1, h2⟩
    by_contra hne
    rcases Nat.lt_trichotomy (t.getD (saN.getD m 0) 0) a with hlt' | heq | hgt
    · have := hlt.1 (decide_eq_true hlt')
      omega
    · exact hne heq
    · have hfalse : (decide (t.getD (saN.getD m 0) 0 ≤ a) : Bool) = false := by
        rw [decide_eq_false_iff_not]
        omega
      have := hle.2 hfalse
      rw [hsplit] at this
      omega

/-! ### C1 development: the LF mapping

For a real symbol `a`, the map sending a BWT row `j` with `B[j] = a` to
the suffix-array row of the predecessor position `SA[j] - 1` (realized
as `posIn saN (saN[j] - 1)`) is the LF mapping; the lemmas below show
it is strictly monotone and compute it as `C[a] + O[a][j]`. -/

theorem bchar_pred {t saN B : List Nat}
    (hsent : t.getD (t.length - 1) 0 = 0)
    (hBval : ∀ j, j < saN.length → B.getD j 0
      = if saN.getD j 0 = 0 then t.getD (t.length - 1) 0
        else t.getD (saN.getD j 0 - 1) 0)
    {a j : Nat} (ha : 1 ≤ a) (hj : j < saN.length) (hBa : B.getD j 0 = a) :
    1 ≤ saN.getD j 0 ∧ t.getD (saN.getD j 0 - 1) 0 = a := by
  have hv := hBval j hj
  by_cases h0 : saN.getD j 0 = 0
  · rw [if_pos h0, hsent] at hv
    omega
  · rw [if_neg h0] at hv
    exact ⟨by omega, by rw [← hv, hBa]⟩

theorem phi_spec {t saN B : List Nat}
    (hperm : sortNats saN = List.range t.length)
    (hsent : t.getD (t.length - 1) 0 = 0)
    (hBval : ∀ j, j < saN.length → B.getD j 0
      = if saN.getD j 0 = 0 then t.getD (t.length - 1) 0
        else t.getD (saN.getD j 0 - 1) 0)
    {a j : Nat} (ha : 1 ≤ a) (hj : j < saN.length) (hBa : B.getD j 0 = a) :
    posIn saN (saN.getD j 0 - 1) < saN.length ∧
    saN.getD (posIn saN (saN.getD j 0 - 1)) 0 = saN.getD j 0 - 1 ∧
    t.getD (saN.getD (posIn saN (saN.getD j 0 - 1)) 0) 0 = a := by
  obtain ⟨hpos, hpred⟩ := bchar_pred hsent hBval ha hj hBa
  have hlt : saN.getD j 0 < t.length := saN_getD_lt hperm hj
  have hmem : saN.getD j 0 - 1 ∈ saN := mem_saN hperm (by omega)
  refine ⟨posIn_lt_of_mem hmem, getD_posIn hmem, ?_⟩
  rw [getD_posIn hmem]
  exact hpred

theorem psi_spec {t saN B : List Nat}
    (hperm : sortNats saN = List.range t.length)
    (hsent : t.getD (t.length - 1) 0 = 0)
    (hBval : ∀ j, j < saN.length → B.getD j 0
      = if saN.getD j 0 = 0 then t.getD (t.length - 1) 0
        else t.getD (saN.getD j 0 - 1) 0)
    {a m : Nat} (ha : 1 ≤ a) (hm : m < saN.length)
    (hfc : t.getD (saN.getD m 0) 0 = a) :
    posIn saN (saN.getD m 0 + 1) < saN.length ∧
    saN.getD (posIn saN (saN.getD m 0 + 1)) 0 = saN.getD m 0 + 1 ∧
    B.getD (posIn saN (saN.getD m 0 + 1)) 0 = a := by
  have hq : saN.getD m 0 < t.length := saN_getD_lt hperm hm
  have hqe : saN.getD m 0 ≠ t.length - 1 := by
    intro he
    rw [he, hsent] at hfc
    omega
  have hmem : saN.getD m 0 + 1 ∈ saN := mem_saN hperm (by omega)
  have h1 : posIn saN (saN.getD m 0 + 1) < saN.length := posIn_lt_of_mem hmem
  have h2 : saN.getD (posIn saN (saN.getD m 0 + 1)) 0 = saN.getD m 0 + 1 :=
    getD_posIn hmem
  refine ⟨h1, h2, ?_⟩
  rw [hBval _ h1, h2, if_neg (by omega)]
  simpa using hfc

theorem phi_psi {t saN B : List Nat}
    (hperm : sortNats saN = List.range t.length)
    (hsent : t.getD (t.length - 1) 0 = 0)
    (hBval : ∀ j, j < saN.length → B.getD j 0
      = if saN.getD j 0 = 0 then t.getD (t.length - 1) 0
        else t.getD (saN.getD j 0 - 1) 0)
    {a m : Nat} (ha : 1 ≤ a) (hm : m < saN.length)
    (hfc : t.getD (saN.getD m 0) 0 = a) :
    posIn saN (saN.getD (posIn saN (saN.getD m 0 + 1)) 0 - 1) = m := by
  obtain ⟨_, h2, _⟩ := psi_spec hperm hsent hBval ha hm hfc
  rw [h2, Nat.add_sub_cancel]
  exact posIn_getD (saN_nodup hperm) hm

theorem psi_phi {t saN B : List Nat}
    (hperm : sortNats saN = List.range t.length)
    (hsent : t.getD (t.length - 1) 0 = 0)
    (hBval : ∀ j, j < saN.length → B.getD j 0
      = if saN.getD j 0 = 0 then t.getD (t.length - 1) 0
        else t.getD (saN.getD j 0 - 1) 0)
    {a j : Nat} (ha : 1 ≤ a) (hj : j < saN.length) (hBa : B.getD j 0 = a) :
    posIn saN (saN.getD (posIn saN (saN.getD j 0 - 1)) 0 + 1) = j := by
  obtain ⟨hpos, _⟩ := bchar_pred hsent hBval ha hj hBa
  obtain ⟨_, h2, _⟩ := phi_spec hperm hsent hBval ha hj hBa
  rw [h2, Nat.sub_add_cancel hpos]
  exact posIn_getD (saN_nodup hperm) hj

theorem phi_mono {t saN B : List Nat}
    (hperm : sortNats saN = List.range t.length)
    (hchain : chainLexB t saN = true)
    (hsent : t.getD (t.length - 1) 0 = 0)
    (hBval : ∀ j, j < saN.length → B.getD j 0
      = if saN.getD j 0 = 0 then t.getD (t.length - 1) 0
        else t.getD (saN.getD j 0 - 1) 0)
    {a j1 j2 : Nat} (ha : 1 ≤ a) (h12 : j1 < j2) (hj2 : j2 < saN.length)
    (hB1 : B.getD j1 0 = a) (hB2 : B.getD j2 0 = a) :
    posIn saN (saN.getD j1 0 - 1) < posIn saN (saN.getD j2 0 - 1) := by
  have hj1 : j1 < saN.length := by omega
  obtain ⟨hp1, hc1⟩ := bchar_pred hsent hBval ha hj1 hB1
  obtain ⟨hp2, hc2⟩ := bchar_pred hsent hBval ha hj2 hB2
  obtain ⟨hl1, he1, _⟩ := phi_spec hperm hsent hBval ha hj1 hB1
  obtain ⟨hl2, he2, _⟩ := phi_spec hperm hsent hBval ha hj2 hB2
  have hn1 : saN.getD j1 0 < t.length := saN_getD_lt hperm hj1
  have hn2 : saN.getD j2 0 < t.length := saN_getD_lt hperm hj2
  have hsorted := saN_sorted hchain h12 hj2
  have hd1 : t.drop (saN.getD j1 0 - 1)
      = a :: t.drop (saN.getD j1 0) := by
    rw [drop_getD_cons (show saN.getD j1 0 - 1 < t.length by omega), hc1,
      Nat.sub_add_cancel hp1]
  have hd2 : t.drop (saN.getD j2 0 - 1)
      = a :: t.drop (saN.getD j2 0) := by
    rw [drop_getD_cons (show saN.getD j2 0 - 1 < t.length by omega), hc2,
      Nat.sub_add_cancel hp2]
  apply saN_lt_of_lex hchain hl1 hl2
  rw [he1, he2, hd1, hd2, lexLt_cons_same]
  exact hsorted

theorem phi_reflect {t saN B : List Nat}
    (hperm : sortNats saN = List.range t.length)
    (hchain : chainLexB t saN = true)
    (hsent : t.getD (t.length - 1) 0 = 0)
    (hBval : ∀ j, j < saN.length → B.getD j 0
      = if saN.getD j 0 = 0 then t.getD (t.length - 1) 0
        else t.getD (saN.getD j 0 - 1) 0)
    {a j1 j2 : Nat} (ha : 1 ≤ a) (hj1 : j1 < saN.length)
    (hj2 : j2 < saN.length) (hB1 : B.getD j1 0 = a) (hB2 : B.getD j2 0 = a)
    (h : posIn saN (saN.getD j1 0 - 1) < posIn saN (saN.getD j2 0 - 1)) :
    j1 < j2 := by
  rcases Nat.lt_trichotomy j1 j2 with hlt | heq | hgt
  · exact hlt
  · subst heq
    omega
  · have := phi_mono hperm hchain hsent hBval ha hgt hj1 hB2 hB1
    omega

theorem lf_formula {t saN B : List Nat}
    (hperm : sortNats saN = List.range t.length)
    (hchain : chainLexB t saN = true)
    (hsent : t.getD (t.length - 1) 0 = 0)
    (hBlen : B.length = saN.length)
    (hBval : ∀ j, j < saN.length → B.getD j 0
      = if saN.getD j 0 = 0 then t.getD (t.length - 1) 0
        else t.getD (saN.getD j 0 - 1) 0)
    (hBperm : List.Perm B t)
    {a : Nat} (ha : 1 ≤ a) :
    ∀ j, j < saN.length → B.getD j 0 = a →
      posIn saN (saN.getD j 0 - 1)
        = t.countP (fun x => x < a) + (B.take j).count a := by
  intro j
  induction j using Nat.strong_induction_on with
  | _ j ih =>
  intro hj hBa
  obtain ⟨hφlen, hφval, hφfc⟩ := phi_spec hperm hsent hBval ha hj hBa
  have hblock := (block_iff t saN a hperm hchain hφlen).mp hφfc
  have hcnt : B.count a = t.count a := hBperm.count_eq a
  have hapos : 1 ≤ t.count a := by
    have hmem : a ∈ B := by
      rw [← hBa, List.getD_eq_getElem B 0 (by omega)]
      exact List.getElem_mem _
    have := List.count_pos_iff.mpr hmem
    omega
  by_cases hr : (B.take j).count a = 0
  · -- the first occurrence maps to the start of the block
    rw [hr]
    by_contra hne
    have hgt : t.countP (fun x => x < a) < posIn saN (saN.getD j 0 - 1) := by
      omega
    have hCvlen : t.countP (fun x => x < a) < saN.length := by
      omega
    have hfcCv : t.getD (saN.getD (t.countP (fun x => x < a)) 0) 0 = a :=
      (block_iff t saN a hperm hchain hCvlen).mpr ⟨le_rfl, by omega⟩
    obtain ⟨hψl, hψv, hψB⟩ := psi_spec hperm hsent hBval ha hCvlen hfcCv
    have hφψ := phi_psi hperm hsent hBval (B := B) ha hCvlen hfcCv
    have hj'j : posIn saN (saN.getD (t.countP (fun x => x < a)) 0 + 1)
        < j := by
      apply phi_reflect hperm hchain hsent hBval ha hψl hj hψB hBa
      rw [hφψ]
      exact hgt
    have hone : 1 ≤ (B.take j).count a := by
      have h1 := count_take_succ B a _ (by omega : posIn saN
        (saN.getD (t.countP (fun x => x < a)) 0 + 1) < B.length)
      rw [if_pos hψB] at h1
      have h2 := count_take_le a B
        (posIn saN (saN.getD (t.countP (fun x => x < a)) 0 + 1) + 1) j
        (by omega)
      omega
    omega
  · obtain ⟨r, hre⟩ : ∃ r, (B.take j).count a = r + 1 :=
      ⟨(B.take j).count a - 1, by omega⟩
    obtain ⟨j', hj'j, hj'B, hBj', hrank'⟩ :=
      count_take_exists a j B r (by omega)
    have hj'sa : j' < saN.length := by omega
    have hIH := ih j' hj'j hj'sa hBj'
    have hwin : (B.take (j' + 1)).count a = r + 1 := by
      have h1 := count_take_succ B a j' hj'B
      rw [if_pos hBj'] at h1
      omega
    have hmono := phi_mono hperm hchain hsent hBval ha hj'j hj hBj' hBa
    have hstep : posIn saN (saN.getD j 0 - 1)
        = posIn saN (saN.getD j' 0 - 1) + 1 := by
      by_contra hne2
      have hgap : posIn saN (saN.getD j' 0 - 1) + 1
          < posIn saN (saN.getD j 0 - 1) := by omega
      have hmlen : posIn saN (saN.getD j' 0 - 1) + 1 < saN.length := by
        omega
      obtain ⟨hφl', hφv', hφf'⟩ := phi_spec hperm hsent hBval ha hj'sa hBj'
      have hblock' := (block_iff t saN a hperm hchain hφl').mp hφf'
      have hfcm : t.getD (saN.getD (posIn saN (saN.getD j' 0 - 1) + 1) 0) 0
          = a := by
        apply (block_iff t saN a hperm hchain hmlen).mpr
        constructor
        · omega
        · omega
      obtain ⟨hψl2, hψv2, hψB2⟩ :=
        psi_spec hperm hsent hBval ha hmlen hfcm
      have hφψ2 := phi_psi hperm hsent hBval (B := B) ha hmlen hfcm
      have hgt1 : j' < posIn saN
          (saN.getD (posIn saN (saN.getD j' 0 - 1) + 1) 0 + 1) := by
        apply phi_reflect hperm hchain hsent hBval ha hj'sa hψl2 hBj' hψB2
        rw [hφψ2]
        omega
      have hgt2 : posIn saN
          (saN.getD (posIn saN (saN.getD j' 0 - 1) + 1) 0 + 1) < j := by
        apply phi_reflect hperm hchain hsent hBval ha hψl2 hj hψB2 hBa
        rw [hφψ2]
        omega
      have hcw1 := count_take_succ B a _ (show posIn saN
        (saN.getD (posIn saN (saN.getD j' 0 - 1) + 1) 0 + 1) < B.length
        by omega)
      rw [if_pos hψB2] at hcw1
      have hcw2 := count_take_le a B (j' + 1) (posIn saN
        (saN.getD (posIn saN (saN.getD j' 0 - 1) + 1) 0 + 1)) (by omega)
      have hcw3 := count_take_le a B (posIn saN
        (saN.getD (posIn saN (saN.getD j' 0 - 1) + 1) 0 + 1) + 1) j
        (by omega)
      omega
    rw [hstep, hIH, hrank', hre]
    omega

/-! ### C1 development: the FM-index backward-extension step -/

theorem backward_step {t saN B : List Nat}
    (hperm : sortNats saN = List.range t.length)
    (hchain : chainLexB t saN = true)
    (hsent : t.getD (t.length - 1) 0 = 0)
    (hBlen : B.length = saN.length)
    (hBval : ∀ j, j < saN.length → B.getD j 0
      = if saN.getD j 0 = 0 then t.getD (t.length - 1) 0
        else t.getD (saN.getD j 0 - 1) 0)
    (hBperm : List.Perm B t)
    {a σ : Nat} (ha : 1 ≤ a) (haσ : a < σ) (htσ : ∀ b ∈ t, b < σ)
    {s : List Nat} {L R : Nat} (hLR : L ≤ R) (hRn : R ≤ saN.length)
    (hinv : ∀ j, j < saN.length →
      ((L ≤ j ∧ j < R) ↔ prefB s (t.drop (saN.getD j 0)) = true)) :
    ((build_ctab B σ).getD a 0 + otabGet (build_otab B σ) a L
      ≤ (build_ctab B σ).getD a 0 + otabGet (build_otab B σ) a R) ∧
    ((build_ctab B σ).getD a 0 + otabGet (build_otab B σ) a R
      ≤ saN.length) ∧
    (∀ j, j < saN.length →
      (((build_ctab B σ).getD a 0 + otabGet (build_otab B σ) a L ≤ j ∧
        j < (build_ctab B σ).getD a 0 + otabGet (build_otab B σ) a R) ↔
       prefB (a :: s) (t.drop (saN.getD j 0)) = true)) := by
  have hBσ : ∀ b ∈ B, b < σ := fun b hb => htσ b (hBperm.mem_iff.mp hb)
  -- the C and O table entries in counting form
  have hC : (build_ctab B σ).getD a 0 = t.countP (fun x => x < a) := by
    rw [ctab_getD_filter B σ a (by omega) haσ]
    rw [← List.countP_eq_length_filter]
    exact hBperm.countP_eq _
  have hO : ∀ i, i ≤ saN.length →
      otabGet (build_otab B σ) a i = (B.take i).count a := by
    intro i hi
    exact otab_count B σ hBσ a i haσ (by omega)
  have hcntB : B.count a = t.count a := hBperm.count_eq a
  have hCO : ∀ i, i ≤ saN.length →
      (build_ctab B σ).getD a 0 + otabGet (build_otab B σ) a i
        = t.countP (fun x => x < a) + (B.take i).count a := by
    intro i hi
    rw [hC, hO i hi]
  rw [hCO L (by omega), hCO R hRn]
  have hTL : (B.take L).count a ≤ (B.take R).count a :=
    count_take_le a B L R hLR
  have hRcnt : (B.take R).count a ≤ t.count a := by
    rw [← hcntB]
    have := count_take_le a B R B.length (by omega)
    rw [List.take_length] at this
    exact this
  have hCle : t.countP (fun x => x < a) + t.count a ≤ t.length := by
    rw [← countP_le_split t a]
    exact List.countP_le_length _
  have hn : saN.length = t.length := saN_length hperm
  refine ⟨by omega, by omega, ?_⟩
  intro j hjn
  constructor
  · rintro ⟨h1, h2⟩
    have hblockj : t.getD (saN.getD j 0) 0 = a := by
      apply (block_iff t saN a hperm hchain hjn).mpr
      omega
    obtain ⟨hψl, hψv, hψB⟩ := psi_spec hperm hsent hBval ha hjn hblockj
    have hφψ := phi_psi hperm hsent hBval (B := B) ha hjn hblockj
    have hlf := lf_formula hperm hchain hsent hBlen hBval hBperm ha _
      hψl hψB
    rw [hφψ] at hlf
    have hrk : (B.take (posIn saN (saN.getD j 0 + 1))).count a
        = j - t.countP (fun x => x < a) := by omega
    have hLψ : L ≤ posIn saN (saN.getD j 0 + 1) := by
      apply le_of_count_take_le B a L _ (by omega) hψB
      omega
    have hψR : posIn saN (saN.getD j 0 + 1) < R := by
      apply lt_of_count_take_lt B a R
      omega
    have hpref := (hinv _ hψl).mp ⟨hLψ, hψR⟩
    rw [hψv] at hpref
    have hsplit : t.drop (saN.getD j 0)
        = a :: t.drop (saN.getD j 0 + 1) := by
      rw [drop_getD_cons (saN_getD_lt hperm hjn), hblockj]
    rw [hsplit]
    simp only [prefB, Bool.and_eq_true, decide_eq_true_eq]
    exact ⟨by trivial, hpref⟩
  · intro hpref
    have hsplit : t.drop (saN.getD j 0)
        = t.getD (saN.getD j 0) 0 :: t.drop (saN.getD j 0 + 1) :=
      drop_getD_cons (saN_getD_lt hperm hjn)
    rw [hsplit] at hpref
    simp only [prefB, Bool.and_eq_true, decide_eq_true_eq] at hpref
    obtain ⟨hfcj, hpref'⟩ := hpref
    have hblockj : t.getD (saN.getD j 0) 0 = a := hfcj.symm
    obtain ⟨hψl, hψv, hψB⟩ := psi_spec hperm hsent hBval ha hjn hblockj
    have hφψ := phi_psi hperm hsent hBval (B := B) ha hjn hblockj
    have hlf := lf_formula hperm hchain hsent hBlen hBval hBperm ha _
      hψl hψB
    rw [hφψ] at hlf
    have hmem : L ≤ posIn saN (saN.getD j 0 + 1) ∧
        posIn saN (saN.getD j 0 + 1) < R := by
      apply (hinv _ hψl).mpr
      rw [hψv]
      exact hpref'
    have hlow : (B.take L).count a
        ≤ (B.take (posIn saN (saN.getD j 0 + 1))).count a :=
      count_take_le a B L _ hmem.1
    have hhigh : (B.take (posIn saN (saN.getD j 0 + 1))).count a
        < (B.take R).count a := by
      have h1 := count_take_succ B a _ (show posIn saN (saN.getD j 0 + 1)
        < B.length by omega)
      rw [if_pos hψB] at h1
      have h2 := count_take_le a B (posIn saN (saN.getD j 0 + 1) + 1) R
        (by omega)
      omega
    omega

/-! ### C1 development: alignment extraction and cost transfer -/

theorem count_edits_cons (a b : Option Nat) (r1 r2 : List (Option Nat)) :
    count_edits (a :: r1, b :: r2)
      = (if a = b then 0 else 1) + count_edits (r1, r2) := by
  unfold count_edits
  simp only [List.zip_cons_cons, List.filter_cons]
  by_cases hab : a = b
  · simp [hab]
  · simp [hab]
    omega

theorem count_walk : ∀ (ops : List Edit) (tc pc rest : List Nat) (c : Nat),
    costOfEdits ops tc pc = some c →
    count_edits (walkEdits ops (tc ++ rest) pc) = c := by
  intro ops
  induction ops with
  | nil =>
      intro tc pc rest c h
      cases tc with
      | cons x tc' => simp [costOfEdits] at h
      | nil =>
          cases pc with
          | cons y pc' => simp [costOfEdits] at h
          | nil =>
              obtain rfl : (0 : Nat) = c := by simpa [costOfEdits] using h
              rfl
  | cons op ops ih =>
      intro tc pc rest c h
      cases op with
      | MATCH =>
          cases tc with
          | nil => simp [costOfEdits] at h
          | cons x tc' =>
              cases pc with
              | nil => simp [costOfEdits] at h
              | cons y pc' =>
                  simp only [costOfEdits, Option.map_eq_some'] at h
                  obtain ⟨c', hc', rfl⟩ := h
                  show count_edits
                    (walkEdits (Edit.MATCH :: ops) (x :: (tc' ++ rest))
                      (y :: pc')) = _
                  simp only [walkEdits, List.tail_cons, List.head?_cons]
                  rw [count_edits_cons, ih tc' pc' rest c' hc']
                  by_cases hxy : x = y
                  · simp [hxy]
                  · simp [hxy, Option.some_inj]
                    omega
      | INSERT =>
          cases pc with
          | nil => simp [costOfEdits] at h
          | cons y pc' =>
              simp only [costOfEdits, Option.map_eq_some'] at h
              obtain ⟨c', hc', rfl⟩ := h
              simp only [walkEdits, List.tail_cons, List.head?_cons]
              rw [count_edits_cons, ih tc pc' rest c' hc']
              simp
              omega
      | DELETE =>
          cases tc with
          | nil => simp [costOfEdits] at h
          | cons x tc' =>
              simp only [costOfEdits, Option.map_eq_some'] at h
              obtain ⟨c', hc', rfl⟩ := h
              show count_edits
                (walkEdits (Edit.DELETE :: ops) (x :: (tc' ++ rest)) pc) = _
              simp only [walkEdits, List.tail_cons, List.head?_cons]
              rw [count_edits_cons, ih tc' pc rest c' hc']
              simp
              omega

theorem costOfEdits_map_eq (f : Nat → Nat) :
    ∀ (ops : List Edit) (tc pc : List Nat),
      (∀ x ∈ tc, ∀ y ∈ pc, (f x = f y ↔ x = y)) →
      costOfEdits ops (tc.map f) (pc.map f) = costOfEdits ops tc pc := by
  intro ops
  induction ops with
  | nil =>
      intro tc pc _
      cases tc <;> cases pc <;> simp [costOfEdits]
  | cons op ops ih =>
      intro tc pc hinj
      cases op with
      | MATCH =>
          cases tc with
          | nil => simp [costOfEdits]
          | cons x tc' =>
              cases pc with
              | nil => simp [costOfEdits]
              | cons y pc' =>
                  simp only [List.map_cons, costOfEdits]
                  rw [ih tc' pc' (fun u hu v hv =>
                    hinj u (List.mem_cons_of_mem x hu)
                      v (List.mem_cons_of_mem y hv))]
                  have hiff := hinj x (List.mem_cons_self x tc')
                    y (List.mem_cons_self y pc')
                  by_cases hxy : x = y
                  · rw [if_pos (hiff.mpr hxy), if_pos hxy]
                  · rw [if_neg (fun hf => hxy (hiff.mp hf)), if_neg hxy]
      | INSERT =>
          cases pc with
          | nil => simp [costOfEdits]
          | cons y pc' =>
              simp only [List.map_cons, costOfEdits]
              rw [ih tc pc' (fun u hu v hv =>
                hinj u hu v (List.mem_cons_of_mem y hv))]
      | DELETE =>
          cases tc with
          | nil => simp [costOfEdits]
          | cons x tc' =>
              simp only [List.map_cons, costOfEdits]
              rw [ih tc' pc (fun u hu v hv =>
                hinj u (List.mem_cons_of_mem x hu) v hv)]

theorem prefB_zero_free : ∀ (s l : List Nat),
    prefB s (l ++ [0]) = true → (∀ ch ∈ s, ch ≠ 0) →
    s.length ≤ l.length ∧ prefB s l = true := by
  intro s
  induction s with
  | nil => intro l _ _; exact ⟨by simp, rfl⟩
  | cons c s' ih =>
      intro l hpref hz
      cases l with
      | nil =>
          simp only [List.nil_append, prefB, Bool.and_eq_true,
            decide_eq_true_eq] at hpref
          obtain ⟨rfl, hp'⟩ := hpref
          cases s' with
          | nil => exact absurd rfl (hz 0 (List.mem_cons_self _ _))
          | cons d s'' => simp [prefB] at hp'
      | cons b l' =>
          simp only [List.cons_append, prefB, Bool.and_eq_true,
            decide_eq_true_eq] at hpref ⊢
          obtain ⟨rfl, hp'⟩ := hpref
          obtain ⟨h1, h2⟩ := ih l' hp'
            (fun ch hch => hz ch (List.mem_cons_of_mem _ hch))
          exact ⟨by simpa using Nat.succ_le_succ h1, by trivial, h2⟩

theorem prefB_take_eq {s l : List Nat} (h : prefB s l = true) :
    s = l.take s.length := by
  obtain ⟨r, rfl⟩ := prefB_exists.mp h
  rw [List.take_left']
  rfl

theorem pref_map_split {mc : Nat → Nat} {T s : List Nat} {posn : Nat}
    (hpos : posn ≤ T.length)
    (hpref : prefB s ((T.map mc ++ [0]).drop posn) = true)
    (hz : ∀ ch ∈ s, ch ≠ 0) :
    s = ((T.drop posn).take s.length).map mc ∧
    posn + s.length ≤ T.length := by
  rw [List.drop_append_of_le_length (by simpa using hpos)] at hpref
  obtain ⟨h1, h2⟩ := prefB_zero_free s ((T.map mc).drop posn) hpref hz
  have h3 := prefB_take_eq h2
  rw [List.length_drop, List.length_map] at h1
  rw [← List.map_drop, ← List.map_take] at h3
  exact ⟨h3, by omega⟩

/-! ### C1 development: the modelled alphabet -/

theorem mem_alphabetOf {xs : List Nat} {ch : Nat} (h : ch ∈ xs) :
    ch ∈ (alphabetOf xs).chars := by
  show ch ∈ sortNats xs.dedup
  rw [(sortNats_perm xs.dedup).mem_iff]
  simpa using h

theorem mapChar_bounds {alpha : Alphabet} {ch : Nat}
    (h : ch ∈ alpha.chars) :
    1 ≤ alpha.mapChar ch ∧ alpha.mapChar ch < alpha.size := by
  unfold Alphabet.mapChar Alphabet.size
  have := posIn_lt_of_mem h
  omega

theorem mapChar_inj {alpha : Alphabet} {x y : Nat}
    (hx : x ∈ alpha.chars) (hy : y ∈ alpha.chars) :
    alpha.mapChar x = alpha.mapChar y ↔ x = y := by
  constructor
  · intro h
    have h' : posIn alpha.chars x = posIn alpha.chars y := by
      unfold Alphabet.mapChar at h
      omega
    rw [← getD_posIn hx, ← getD_posIn hy, h']
  · intro h
    rw [h]

theorem mapped_text_length (xs : List Nat) :
    (mapped_string_with_sentinel xs).1.length = xs.length + 1 := by
  unfold mapped_string_with_sentinel
  simp

theorem mapped_text_sentinel (xs : List Nat) :
    (mapped_string_with_sentinel xs).1.getD
      ((mapped_string_with_sentinel xs).1.length - 1) 0 = 0 := by
  unfold mapped_string_with_sentinel
  simp only [List.length_append, List.length_map, List.length_cons,
    List.length_nil]
  rw [List.getD_append_right _ _ _ _ (by simp)]
  simp

theorem mapped_text_bound (xs : List Nat) :
    ∀ b ∈ (mapped_string_with_sentinel xs).1, b < (alphabetOf xs).size := by
  intro b hb
  unfold mapped_string_with_sentinel at hb
  simp only [List.mem_append, List.mem_map, List.mem_singleton] at hb
  rcases hb with ⟨ch, hch, rfl⟩ | rfl
  · exact (mapChar_bounds (mem_alphabetOf hch)).2
  · unfold Alphabet.size
    omega

theorem alphabet_map_some {alpha : Alphabet} {p_ pm : List Nat}
    (h : alpha.map p_ = some pm) :
    pm = p_.map alpha.mapChar ∧ (∀ ch ∈ p_, ch ∈ alpha.chars) := by
  unfold Alphabet.map at h
  by_cases hall : p_.all (fun c => c ∈ alpha.chars)
  · rw [if_pos hall] at h
    refine ⟨by simpa using h.symm, ?_⟩
    intro ch hch
    simpa using List.all_eq_true.mp hall ch hch
  · rw [if_neg hall] at h
    exact Option.noConfusion h

theorem getD_map_toNat (saI : List Int) (j : Nat) (hj : j < saI.length) :
    (saI.map Int.toNat).getD j 0 = (saI.getD j 0).toNat := by
  rw [List.getD_eq_getElem _ 0 (by simpa using hj), List.getElem_map,
    List.getD_eq_getElem saI 0 hj]

theorem getD_int_nonneg {saI : List Int} (hv : ∀ v ∈ saI, 0 ≤ v)
    {j : Nat} (hj : j < saI.length) : 0 ≤ saI.getD j 0 := by
  rw [List.getD_eq_getElem saI 0 hj]
  exact hv _ (List.getElem_mem hj)

/-- Master soundness invariant for the traversal: along any node whose
interval characterises the suffixes extending the built-up text segment
`s`, whose recorded edits cost `c` against the consumed pattern suffix,
every yielded hit admits a full-pattern alignment of cost at most
`c + max_edits` starting at the hit position. -/
theorem searchRec_sound_aux {t B : List Nat} (saI : List Int)
    (hperm : sortNats (saI.map Int.toNat) = List.range t.length)
    (hchain : chainLexB t (saI.map Int.toNat) = true)
    (hv : ∀ v ∈ saI, 0 ≤ v)
    (hsent : t.getD (t.length - 1) 0 = 0)
    (hBlen : B.length = (saI.map Int.toNat).length)
    (hBval : ∀ j, j < (saI.map Int.toNat).length → B.getD j 0
      = if (saI.map Int.toNat).getD j 0 = 0 then t.getD (t.length - 1) 0
        else t.getD ((saI.map Int.toNat).getD j 0 - 1) 0)
    (hBperm : List.Perm B t)
    {σ : Nat} (htσ : ∀ b ∈ t, b < σ)
    (dtab : List Nat) (pm : List Nat) :
    ∀ N (left right : Nat) (pos me : Int) (es : List Edit) (s : List Nat)
      (c : Nat),
      ((pos + 2).toNat + (me + 2).toNat) ≤ N →
      left ≤ right → right ≤ saI.length →
      -1 ≤ pos → pos < (pm.length : Int) →
      (∀ j, j < saI.length →
        ((left ≤ j ∧ j < right) ↔
          prefB s (t.drop ((saI.map Int.toNat).getD j 0)) = true)) →
      (∀ ch ∈ s, 1 ≤ ch ∧ ch < σ) →
      costOfEdits es.reverse s (pm.drop ((pos + 1).toNat)) = some c →
      ∀ hit ∈ searchRec σ saI (build_ctab B σ) (build_otab B σ) dtab pm
          left right pos me es,
        ∃ (esf : List Edit) (sf : List Nat) (cf : Nat),
          hit.2 = edits_to_cigar esf.reverse ∧
          costOfEdits esf.reverse sf pm = some cf ∧
          (cf : Int) ≤ (c : Int) + me ∧
          0 ≤ hit.1 ∧
          hit.1.toNat < t.length ∧
          prefB sf (t.drop hit.1.toNat) = true ∧
          (∀ ch ∈ sf, 1 ≤ ch ∧ ch < σ) := by
  intro N
  induction N with
  | zero =>
      intro left right pos me es s c hN hLR hRn hpos hposm hinv hs hcost
        hit hmem
      exfalso
      omega
  | succ N ih =>
      intro left right pos me es s c hN hLR hRn hpos hposm hinv hs hcost
        hit hmem
      rw [searchRec] at hmem
      by_cases hprune : left = right ∨ me < ((pyget dtab 0 pos : Nat) : Int)
      · rw [dif_pos hprune] at hmem
        simp at hmem
      · rw [dif_neg hprune] at hmem
        push_neg at hprune
        have hd0 : (0 : Int) ≤ ((pyget dtab 0 pos : Nat) : Int) :=
          Int.ofNat_nonneg _
        have hme0 : 0 ≤ me := le_trans hd0 hprune.2
        by_cases hdone : pos < 0
        · rw [dif_pos hdone] at hmem
          simp only [List.mem_map] at hmem
          obtain ⟨j, hjmem, rfl⟩ := hmem
          have hjb := List.mem_range'_1.mp hjmem
          have hjr : left ≤ j ∧ j < right := by omega
          have hjlen : j < saI.length := by omega
          have h0 : ((pos + 1)).toNat = 0 := by omega
          rw [h0, List.drop_zero] at hcost
          refine ⟨es, s, c, rfl, hcost, by omega,
            getD_int_nonneg hv hjlen, ?_, ?_, hs⟩
          · have hjlen' : j < (saI.map Int.toNat).length := by
              simpa using hjlen
            have := saN_getD_lt hperm hjlen'
            rwa [getD_map_toNat saI j hjlen] at this
          · have := (hinv j hjlen).mp hjr
            rwa [getD_map_toNat saI j hjlen] at this
        · rw [dif_neg hdone] at hmem
          push_neg at hdone
          have hpos0 : pos.toNat < pm.length := by omega
          have hdrop : pm.drop pos.toNat
              = pm.getD pos.toNat 0 :: pm.drop (pos.toNat + 1) :=
            drop_getD_cons hpos0
          have htn : (pos + 1).toNat = pos.toNat + 1 := by omega
          rw [htn] at hcost
          simp only [List.mem_append, List.mem_flatMap] at hmem
          rcases hmem with (⟨a, ha, hmem⟩ | hmem) | hmem
          · -- MATCH child
            have hab := List.mem_range'_1.mp ha
            have ha1 : 1 ≤ a := hab.1
            have haσ : a < σ := by omega
            obtain ⟨hLR2, hRn2, hinv2⟩ :=
              backward_step hperm hchain hsent hBlen hBval hBperm ha1 haσ
                htσ hLR (by simpa using hRn)
                (fun j hj => hinv j (by simpa using hj))
            by_cases hay : a = pm.getD pos.toNat 0
            · rw [show (if (a : Int) ≠ ((pm.getD pos.toNat 0 : Nat) : Int)
                  then (1 : Int) else 0) = 0 by simp [hay], sub_zero] at hmem
              have hcost' : costOfEdits (es ++ [Edit.MATCH]).reverse (a :: s)
                  (pm.drop ((pos - 1 + 1).toNat)) = some c := by
                rw [show (pos - 1 + 1).toNat = pos.toNat by omega, hdrop,
                  List.reverse_append]
                show costOfEdits (Edit.MATCH :: es.reverse) (a :: s) _ = _
                rw [costOfEdits, hcost]
                simp [hay]
              exact ih _ _ (pos - 1) _ (es ++ [Edit.MATCH]) (a :: s) c
                (by omega) hLR2 (by simpa using hRn2) (by omega) (by omega)
                (fun j hj => hinv2 j (by simpa using hj))
                (by
                  intro ch hch
                  rcases List.mem_cons.mp hch with rfl | hch
                  · exact ⟨ha1, haσ⟩
                  · exact hs ch hch)
                hcost' hit hmem
            · rw [show (if (a : Int) ≠ ((pm.getD pos.toNat 0 : Nat) : Int)
                  then (1 : Int) else 0) = 1 from
                    if_pos (fun h => hay (by exact_mod_cast h))] at hmem
              have hcost' : costOfEdits (es ++ [Edit.MATCH]).reverse (a :: s)
                  (pm.drop ((pos - 1 + 1).toNat)) = some (c + 1) := by
                rw [show (pos - 1 + 1).toNat = pos.toNat by omega, hdrop,
                  List.reverse_append]
                show costOfEdits (Edit.MATCH :: es.reverse) (a :: s) _ = _
                rw [costOfEdits, hcost]
                simp only [Option.map_some']
                rw [if_neg hay]
              obtain ⟨esf, sf, cf, h1, h2, h3, h4, h4b, h5, h6⟩ :=
                ih _ _ (pos - 1) _ (es ++ [Edit.MATCH]) (a :: s) (c + 1)
                  (by omega) hLR2 (by simpa using hRn2) (by omega) (by omega)
                  (fun j hj => hinv2 j (by simpa using hj))
                  (by
                    intro ch hch
                    rcases List.mem_cons.mp hch with rfl | hch
                    · exact ⟨ha1, haσ⟩
                    · exact hs ch hch)
                  hcost' hit hmem
              refine ⟨esf, sf, cf, h1, h2, ?_, h4, h4b, h5, h6⟩
              push_cast at h3 ⊢
              omega
          · -- INSERT child
            have hcost' : costOfEdits (es ++ [Edit.INSERT]).reverse s
                (pm.drop ((pos - 1 + 1).toNat)) = some (c + 1) := by
              rw [show (pos - 1 + 1).toNat = pos.toNat by omega, hdrop,
                List.reverse_append]
              show costOfEdits (Edit.INSERT :: es.reverse) s _ = _
              rw [costOfEdits, hcost]
              rfl
            obtain ⟨esf, sf, cf, h1, h2, h3, h4, h4b, h5, h6⟩ :=
              ih _ _ (pos - 1) _ (es ++ [Edit.INSERT]) s (c + 1)
                (by omega) hLR hRn (by omega) (by omega) hinv hs
                hcost' hit hmem
            refine ⟨esf, sf, cf, h1, h2, ?_, h4, h4b, h5, h6⟩
            push_cast at h3 ⊢
            omega
          · -- DELETE children
            by_cases hz : es.length = 0
            · rw [if_pos hz] at hmem
              simp at hmem
            · rw [if_neg hz] at hmem
              simp only [List.mem_flatMap] at hmem
              obtain ⟨a, ha, hmem⟩ := hmem
              have hab := List.mem_range'_1.mp ha
              have ha1 : 1 ≤ a := hab.1
              have haσ : a < σ := by omega
              obtain ⟨hLR2, hRn2, hinv2⟩ :=
                backward_step hperm hchain hsent hBlen hBval hBperm ha1 haσ
                  htσ hLR (by simpa using hRn)
                  (fun j hj => hinv j (by simpa using hj))
              have hcost' : costOfEdits (es ++ [Edit.DELETE]).reverse (a :: s)
                  (pm.drop ((pos + 1).toNat)) = some (c + 1) := by
                rw [htn, List.reverse_append]
                show costOfEdits (Edit.DELETE :: es.reverse) (a :: s) _ = _
                rw [costOfEdits, hcost]
                rfl
              obtain ⟨esf, sf, cf, h1, h2, h3, h4, h4b, h5, h6⟩ :=
                ih _ _ pos _ (es ++ [Edit.DELETE]) (a :: s) (c + 1)
                  (by omega) hLR2 (by simpa using hRn2) (by omega) (by omega)
                  (fun j hj => hinv2 j (by simpa using hj))
                  (by
                    intro ch hch
                    rcases List.mem_cons.mp hch with rfl | hch
                    · exact ⟨ha1, haσ⟩
                    · exact hs ch hch)
                  hcost' hit hmem
              refine ⟨esf, sf, cf, h1, h2, ?_, h4, h4b, h5, h6⟩
              push_cast at h3 ⊢
              omega

/-- C1: search soundness.  For every text `T`, every suffix array of the
mapped text, every pattern accepted by the alphabet and every edit budget
`k ≥ 0`, each `(pos, cigar)` pair yielded by `search` describes an
alignment of the pattern against `T` at position `pos` with at most `k`
edits: `count_edits (extract_alignment T P pos cigar) ≤ k`. -/
theorem search_soundness (T : List Nat) (saI : List Int)
    (rotab : List (List Nat)) (p_ : List Nat) (k : Int)
    (hits : List (Int × Cigar)) (hk : 0 ≤ k)
    (hsa : isSuffixArray (mapped_string_with_sentinel T).1 saI)
    (hok : approx_searcher_from_tables (alphabetOf T) saI
      (build_ctab (bwt_from_sa (mapped_string_with_sentinel T).1 saI)
        (alphabetOf T).size)
      (build_otab (bwt_from_sa (mapped_string_with_sentinel T).1 saI)
        (alphabetOf T).size)
      rotab p_ k = .ok hits) :
    ∀ hit ∈ hits,
      (count_edits (extract_alignment T p_ hit.1.toNat hit.2) : Int) ≤ k := by
  intro hit hmem
  obtain ⟨hv, hperm, hchain⟩ := hsa
  unfold approx_searcher_from_tables at hok
  by_cases hz : p_.length = 0
  · rw [if_pos hz] at hok
    exact Except.noConfusion hok
  · rw [if_neg hz] at hok
    cases hmap : (alphabetOf T).map p_ with
    | none =>
        rw [hmap] at hok
        obtain rfl : ([] : List (Int × Cigar)) = hits := by simpa using hok
        simp at hmem
    | some pm =>
        rw [hmap] at hok
        obtain ⟨hpm, hchars⟩ := alphabet_map_some hmap
        obtain rfl : searchRec (alphabetOf T).size saI
            (build_ctab (bwt_from_sa (mapped_string_with_sentinel T).1 saI)
              (alphabetOf T).size)
            (build_otab (bwt_from_sa (mapped_string_with_sentinel T).1 saI)
              (alphabetOf T).size)
            (build_dtab pm saI.length
              (build_ctab (bwt_from_sa (mapped_string_with_sentinel T).1 saI)
                (alphabetOf T).size) rotab) pm
            0 saI.length ((pm.length : Int) - 1) k [] = hits := by
          simpa using hok
        have hTne : (mapped_string_with_sentinel T).1 ≠ [] := by
          show T.map (alphabetOf T).mapChar ++ [0] ≠ []
          simp
        obtain ⟨esf, sf, cf, h1, h2, h3, h4, h4b, h5, h6⟩ :=
          searchRec_sound_aux (t := (mapped_string_with_sentinel T).1)
            (B := bwt_from_sa (mapped_string_with_sentinel T).1 saI)
            (σ := (alphabetOf T).size) saI hperm hchain hv
            (mapped_text_sentinel T)
            (by simp [bwt_from_sa_length])
            (fun j hj => bwt_getD hv (by simpa using hj))
            (bwt_perm hv hperm hTne)
            (mapped_text_bound T)
            (build_dtab pm saI.length
              (build_ctab (bwt_from_sa (mapped_string_with_sentinel T).1 saI)
                (alphabetOf T).size) rotab) pm
            ((((pm.length : Int) - 1) + 2).toNat + (k + 2).toNat)
            0 saI.length ((pm.length : Int) - 1) k [] [] 0
            le_rfl (Nat.zero_le _) le_rfl (by omega) (by omega)
            (by
              intro j hj
              constructor
              · intro _
                rfl
              · intro _
                exact ⟨Nat.zero_le j, hj⟩)
            (by intro ch hch; simp at hch)
            (by
              rw [show (((pm.length : Int) - 1 + 1)).toNat = pm.length
                by omega, List.drop_length]
              rfl)
            hit hmem
        have hz' : ∀ ch ∈ sf, ch ≠ 0 := by
          intro ch hch
          have := (h6 ch hch).1
          omega
        have hposnle : hit.1.toNat ≤ T.length := by
          rw [mapped_text_length] at h4b
          omega
        have h5' : prefB sf
            ((T.map (alphabetOf T).mapChar ++ [0]).drop hit.1.toNat)
            = true := h5
        obtain ⟨hsf, hfit⟩ := pref_map_split hposnle h5' hz'
        have hinj : ∀ x ∈ (T.drop hit.1.toNat).take sf.length, ∀ y ∈ p_,
            ((alphabetOf T).mapChar x = (alphabetOf T).mapChar y ↔ x = y) := by
          intro x hx y hy
          exact mapChar_inj
            (mem_alphabetOf (List.mem_of_mem_drop (List.mem_of_mem_take hx)))
            (hchars y hy)
        have h2' : costOfEdits esf.reverse
            ((T.drop hit.1.toNat).take sf.length) p_ = some cf := by
          rw [← costOfEdits_map_eq (alphabetOf T).mapChar esf.reverse
            ((T.drop hit.1.toNat).take sf.length) p_ hinj]
          rw [hsf, hpm] at h2
          exact h2
        have hcount := count_walk esf.reverse
          ((T.drop hit.1.toNat).take sf.length) p_
          ((T.drop hit.1.toNat).drop sf.length) cf h2'
        rw [List.take_append_drop] at hcount
        have hext : extract_alignment T p_ hit.1.toNat hit.2
            = walkEdits esf.reverse (T.drop hit.1.toNat) p_ := by
          unfold extract_alignment
          rw [h1, cigar_to_edits_edits_to_cigar]
        rw [hext, hcount]
        omega

/-- C1 witness: on the text `"ab"` with its suffix array `[2, 0, 1]`,
pattern `"a"` and budget `1`, the run yields the hit `(0, 1M)`, and its
extracted alignment against the raw text has at most one edit. -/
theorem search_soundness_witness :
    (0 : Int) ≤ 1 ∧
    isSuffixArray (mapped_string_with_sentinel [97, 98]).1 [2, 0, 1] ∧
    approx_searcher_from_tables (alphabetOf [97, 98]) [2, 0, 1]
        (build_ctab (bwt_from_sa (mapped_string_with_sentinel [97, 98]).1
          [2, 0, 1]) (alphabetOf [97, 98]).size)
        (build_otab (bwt_from_sa (mapped_string_with_sentinel [97, 98]).1
          [2, 0, 1]) (alphabetOf [97, 98]).size)
        [] [97] 1
      = .ok [(0, [(1, Edit.MATCH)]), (1, [(1, Edit.MATCH)]),
             (2, [(1, Edit.INSERT)]), (0, [(1, Edit.INSERT)]),
             (1, [(1, Edit.INSERT)])] ∧
    (((0 : Int), ([(1, Edit.MATCH)] : Cigar)) ∈
      [((0 : Int), ([(1, Edit.MATCH)] : Cigar)), (1, [(1, Edit.MATCH)]),
       (2, [(1, Edit.INSERT)]), (0, [(1, Edit.INSERT)]),
       (1, [(1, Edit.INSERT)])]) ∧
    (count_edits (extract_alignment [97, 98] [97]
        (((0 : Int), ([(1, Edit.MATCH)] : Cigar)).1.toNat)
        (((0 : Int), ([(1, Edit.MATCH)] : Cigar)).2)) : Int) ≤ 1 := by
  have hok : approx_searcher_from_tables (alphabetOf [97, 98]) [2, 0, 1]
      (build_ctab (bwt_from_sa (mapped_string_with_sentinel [97, 98]).1
        [2, 0, 1]) (alphabetOf [97, 98]).size)
      (build_otab (bwt_from_sa (mapped_string_with_sentinel [97, 98]).1
        [2, 0, 1]) (alphabetOf [97, 98]).size)
      [] [97] 1
      = .ok [(0, [(1, Edit.MATCH)]), (1, [(1, Edit.MATCH)]),
             (2, [(1, Edit.INSERT)]), (0, [(1, Edit.INSERT)]),
             (1, [(1, Edit.INSERT)])] := by
    have h1 : searchFuel 3 [2, 0, 1] [0, 1, 2]
        [[0, 0, 0], [0, 0, 1], [1, 0, 1], [1, 1, 1]]
        (build_dtab [1] 3 [0, 1, 2] []) [1] 16 0 3 0 1 []
        = searchRec 3 [2, 0, 1] [0, 1, 2]
        [[0, 0, 0], [0, 0, 1], [1, 0, 1], [1, 1, 1]]
        (build_dtab [1] 3 [0, 1, 2] []) [1] 0 3 0 1 [] :=
      searchFuel_eq_searchRec _ _ _ _ _ _ 16 0 3 0 1 [] (by decide)
    have h2 : searchFuel 3 [2, 0, 1] [0, 1, 2]
        [[0, 0, 0], [0, 0, 1], [1, 0, 1], [1, 1, 1]]
        (build_dtab [1] 3 [0, 1, 2] []) [1] 16 0 3 0 1 []
        = [(0, [(1, Edit.MATCH)]), (1, [(1, Edit.MATCH)]),
           (2, [(1, Edit.INSERT)]), (0, [(1, Edit.INSERT)]),
           (1, [(1, Edit.INSERT)])] := by decide
    rw [show approx_searcher_from_tables (alphabetOf [97, 98]) [2, 0, 1]
          (build_ctab (bwt_from_sa (mapped_string_with_sentinel [97, 98]).1
            [2, 0, 1]) (alphabetOf [97, 98]).size)
          (build_otab (bwt_from_sa (mapped_string_with_sentinel [97, 98]).1
            [2, 0, 1]) (alphabetOf [97, 98]).size)
          [] [97] 1
        = .ok (searchRec 3 [2, 0, 1] [0, 1, 2]
          [[0, 0, 0], [0, 0, 1], [1, 0, 1], [1, 1, 1]]
          (build_dtab [1] 3 [0, 1, 2] []) [1] 0 3 0 1 []) from rfl]
    rw [← h1, h2]
  refine ⟨by decide, by decide, hok, by decide, ?_⟩
  exact search_soundness [97, 98] [2, 0, 1] [] [97] 1 _ (by decide)
    (by decide) hok ((0 : Int), ([(1, Edit.MATCH)] : Cigar)) (by decide)

end Readmap
